import Mathlib

set_option maxRecDepth 8000

/-! # Embedding of the Kite For Life ingestion / reconciliation pipeline

Definitions below translate the tabular ingestion and column-reconciliation
pipeline of `app_Version4_Version4.py` (the complete variant of the two
near-duplicate source files).  Python strings are Lean `String`s, cell values
are embedded as `Val` (rationals for numeric cells, strings, and `null` for
missing/NaN values), and a pandas DataFrame as an ordered list of labelled
columns. -/

/-- Whitespace, as treated by Python `str.strip` / `str.split` on the header
labels this application handles. -/
def isSpaceP (c : Char) : Bool :=
  c == ' ' || c == '\t' || c == '\n' || c == '\r' || c == '\x0b' || c == '\x0c'

/-- Lower/upper letter pairs realising Python `str.upper` on Latin letters
(ASCII plus the accented letters of this application's vocabulary). -/
def upperPairs : List (Char × Char) :=
  [('a', 'A'), ('b', 'B'), ('c', 'C'), ('d', 'D'), ('e', 'E'), ('f', 'F'),
   ('g', 'G'), ('h', 'H'), ('i', 'I'), ('j', 'J'), ('k', 'K'), ('l', 'L'),
   ('m', 'M'), ('n', 'N'), ('o', 'O'), ('p', 'P'), ('q', 'Q'), ('r', 'R'),
   ('s', 'S'), ('t', 'T'), ('u', 'U'), ('v', 'V'), ('w', 'W'), ('x', 'X'),
   ('y', 'Y'), ('z', 'Z'),
   ('á', 'Á'), ('à', 'À'), ('â', 'Â'), ('ã', 'Ã'), ('ç', 'Ç'), ('é', 'É'),
   ('ê', 'Ê'), ('í', 'Í'), ('ó', 'Ó'), ('ô', 'Ô'), ('õ', 'Õ'), ('ú', 'Ú'),
   ('ü', 'Ü')]

/-- Uppercasing of one character (Python `str.upper`, characterwise). -/
def upperChar (c : Char) : Char :=
  match upperPairs.find? (fun p => p.1 == c) with
  | some p => p.2
  | none => c

/-- Lowercasing of one character (Python `str.lower`, characterwise);
used by the loader's `uploaded.name.lower()` extension sniffing. -/
def lowerChar (c : Char) : Char :=
  match upperPairs.find? (fun p => p.2 == c) with
  | some p => p.1
  | none => c

/-- Python `str.split()` with no separator: splits on runs of whitespace and
discards empty pieces.  `acc` carries the current token, reversed. -/
def splitWSAux : List Char → List Char → List (List Char)
  | [], acc => if acc.isEmpty then [] else [acc.reverse]
  | c :: cs, acc =>
    if isSpaceP c then
      (if acc.isEmpty then splitWSAux cs [] else acc.reverse :: splitWSAux cs [])
    else splitWSAux cs (c :: acc)

def splitWS (l : List Char) : List (List Char) := splitWSAux l []

/-- Python `" ".join(tokens)`. -/
def joinWS : List (List Char) → List Char
  | [] => []
  | [t] => t
  | t :: ts => t ++ ' ' :: joinWS ts

/-- Python `str.strip()`: drop leading and trailing whitespace. -/
def stripWS (l : List Char) : List Char :=
  ((l.dropWhile isSpaceP).reverse.dropWhile isSpaceP).reverse

/-- `normalize_colname` from the source: strip, uppercase, collapse internal
whitespace to single spaces (the non-string input branch is handled by the
Lean type).  Source: `" ".join(name.strip().upper().split())`. -/
def normalize_colname (s : String) : String :=
  String.mk (joinWS (splitWS ((stripWS s.data).map upperChar)))

/-! ## The fixed rubric and the rubric mapper (`map_columns_to_criterios`) -/

/-- The ten rubric fields (`CRITERIOS` in the source). -/
def CRITERIOS : List String :=
  ["LIDERANÇA", "ASSIDUIDADE", "FLEXIBILIDADE", "TEORIA",
   "COMANDO", "CONTROLE", "BADYDRAG ESQ/DIR", "WATER START",
   "PRANCHA ESQ/DIR", "CONTRA VENTO"]

/-- Python substring containment `needle in hay`. -/
def containsSub (needle hay : List Char) : Bool :=
  hay.tails.any (fun t => needle.isPrefixOf t)

def containsSubStr (needle hay : String) : Bool := containsSub needle.data hay.data

/-- Python `str.split()` lifted to `String`. -/
def pySplitWS (s : String) : List String := (splitWS s.data).map String.mk

/-- Python single-character `str.replace`. -/
def pyReplaceChar (s : String) (a b : Char) : String :=
  String.mk (s.data.map (fun c => if c == a then b else c))

/-- `crit.replace("/", " ").split()[0]`: the first token of the rubric field
name after replacing slashes with spaces (all rubric names are nonempty, so
the Python index `[0]` never faults; `headD` renders it total). -/
def firstSlashToken (crit : String) : String :=
  (pySplitWS (pyReplaceChar crit '/' ' ')).headD ""

/-- The heuristic-pass match condition of the source (line 101): some
whitespace token of the rubric name occurs in the normalized header, or the
first slash-split token does. -/
def heurMatches (crit norm : String) : Bool :=
  (pySplitWS crit).any (fun w => containsSubStr w norm) ||
  [firstSlashToken crit].any (fun w => containsSubStr w norm)

/-- The heuristic-pass exclusion of the source (line 103): headers whose
canonical form mentions the identifier or aggregate keywords are skipped. -/
def excludedHeader (norm : String) : Bool :=
  containsSubStr "ALUNO" norm || containsSubStr "MEDIA" norm || containsSubStr "MÉDIA" norm

def hasKeyB (m : List (String × String)) (k : String) : Bool := m.any (fun p => p.1 == k)

def hasValB (m : List (String × String)) (v : String) : Bool := m.any (fun p => p.2 == v)

/-- Python dict assignment `m[k] = v`: overwrite in place, or append. -/
def dictInsert (m : List (String × String)) (k v : String) : List (String × String) :=
  if hasKeyB m k then m.map (fun p => if p.1 == k then (k, v) else p) else m ++ [(k, v)]

/-- `inv_index[norm]`: the value stored for key `norm` in
`{normalize_colname(c): c for c in df.columns}` — i.e. the LAST column whose
canonical form is `norm` (later dict writes overwrite earlier ones). -/
def invIndexGet (cols : List String) (norm : String) : Option String :=
  ((cols.filter (fun c => normalize_colname c == norm)).reverse).head?

/-- One exact-pass iteration (source lines 85-90): if some column's canonical
form equals `crit`, assign `col_map[inv_index[crit]] = crit`. -/
def exactStep (cols : List String) (m : List (String × String)) (crit : String) :
    List (String × String) :=
  match invIndexGet cols crit with
  | some key => dictInsert m key crit
  | none => m

/-- The inner scan of the heuristic pass (source lines 97-106): first header
(in first-occurrence order) whose `inv_index` representative is unmapped,
whose canonical form matches heuristically and is not excluded. -/
def findHeurKey (cols : List String) (m : List (String × String)) (crit : String) :
    List String → Option String
  | [] => none
  | orig :: rest =>
    match invIndexGet cols (normalize_colname orig) with
    | none => findHeurKey cols m crit rest
    | some key =>
      if hasKeyB m key then findHeurKey cols m crit rest
      else if heurMatches crit (normalize_colname orig) then
        (if excludedHeader (normalize_colname orig) then findHeurKey cols m crit rest
         else some key)
      else findHeurKey cols m crit rest

/-- One heuristic-pass iteration (source lines 93-106). -/
def heurStep (cols : List String) (m : List (String × String)) (crit : String) :
    List (String × String) :=
  if hasValB m crit then m
  else
    match findHeurKey cols m crit cols.eraseDups with
    | some key => dictInsert m key crit
    | none => m

/-- The `col_map` built by `map_columns_to_criterios`: the exact pass over the
rubric followed by the heuristic pass.  The scans iterate over
`cols.eraseDups`, matching iteration over the keys of `normalized_cols`
(Python dict keys are deduplicated in first-occurrence order). -/
def col_map (cols : List String) : List (String × String) :=
  CRITERIOS.foldl (heurStep cols) (CRITERIOS.foldl (exactStep cols) [])

/-- Invariant maintained by the exact pass: every entry is keyed by the
`inv_index` representative of its rubric-field value, and keys are distinct. -/
def ExactInv (cols : List String) (m : List (String × String)) : Prop :=
  (∀ p ∈ m, invIndexGet cols p.2 = some p.1) ∧ (m.map Prod.fst).Nodup

/-- Invariant maintained by the heuristic pass: keys and values distinct. -/
def HeurInv (m : List (String × String)) : Prop :=
  (m.map Prod.fst).Nodup ∧ (m.map Prod.snd).Nodup

/-! ## Tabular data model

A cell holds a rational number (pandas numeric cells — floats are idealised
as exact rationals), a string, or `null` (missing / NaN).  A DataFrame is an
ordered list of labelled columns; pandas tables are rectangular, which the
`Wellformed` predicate expresses. -/

inductive Val where
  | num (q : ℚ)
  | str (s : String)
  | null
deriving DecidableEq

abbrev Column := String × List Val
abbrev DataFrame := List Column

/-- `len(df)`: the number of rows (length of the first column; 0 if no
columns). -/
def nRows (df : DataFrame) : Nat :=
  match df with
  | [] => 0
  | col :: _ => col.2.length

def colLabels (df : DataFrame) : List String := df.map Prod.fst

/-- `c in df.columns`. -/
def hasCol (df : DataFrame) (c : String) : Bool := df.any (fun col => col.1 == c)

def findCol (df : DataFrame) (c : String) : Option Column :=
  df.find? (fun col => col.1 == c)

/-- `df[c][i]`, defensively `null` when the column or row is absent (pandas
tables are rectangular so the defensive branch is never hit on well-formed
data).  With duplicated labels pandas `df[c]` selects EVERY matching column,
while this embedding reads the first match; duplicates are reachable (two
raw headers can collapse to one canonical label at line 153), so the one
claim whose truth depends on which cells are read — the aggregate-mean
claim — carries an explicit pairwise-distinct-labels hypothesis. -/
def getCell (df : DataFrame) (c : String) (i : Nat) : Val :=
  match findCol df c with
  | some col => col.2.getD i Val.null
  | none => Val.null

/-- `df[c] = vs`: replace the values of an existing column, else append a new
column at the end (pandas column assignment). -/
def setCol (df : DataFrame) (c : String) (vs : List Val) : DataFrame :=
  if hasCol df c then df.map (fun col => if col.1 == c then (col.1, vs) else col)
  else df ++ [(c, vs)]

/-- `df.rename(columns=m)`: relabel the columns that occur as keys of `m`. -/
def renameWith (df : DataFrame) (m : List (String × String)) : DataFrame :=
  df.map (fun col => (((m.find? (fun p => p.1 == col.1)).map Prod.snd).getD col.1, col.2))

/-- `df.rename(columns={a: b})`. -/
def renameCol (df : DataFrame) (a b : String) : DataFrame :=
  df.map (fun col => (if col.1 == a then b else col.1, col.2))

/-- Rectangularity: every column has exactly `nRows df` cells. -/
def Wellformed (df : DataFrame) : Prop := ∀ col ∈ df, col.2.length = nRows df

instance (df : DataFrame) : Decidable (Wellformed df) :=
  inferInstanceAs (Decidable (∀ col ∈ df, col.2.length = nRows df))

/-! ## The pipeline (`app_Version4_Version4.py`, module level) -/

/-- `df.columns = [normalize_colname(c) for c in df.columns]` (line 153). -/
def normalizeCols (df : DataFrame) : DataFrame :=
  df.map (fun col => (normalize_colname col.1, col.2))

/-- `map_columns_to_criterios` (lines 74-110): build `col_map` from the
column labels and rename accordingly. -/
def map_columns_to_criterios (df : DataFrame) : DataFrame :=
  renameWith df (col_map (colLabels df))

/-- One step of `ensure_criterios_columns`: `if c not in df.columns:
df[c] = 0.0` (the scalar broadcasts to every row). -/
def ensureStep (d : DataFrame) (c : String) : DataFrame :=
  if hasCol d c then d else setCol d c (List.replicate (nRows d) (Val.num 0))

/-- `ensure_criterios_columns` (lines 113-118). -/
def ensure_criterios_columns (df : DataFrame) : DataFrame :=
  CRITERIOS.foldl ensureStep df

/-- `[f"Aluno {i+1}" for i in range(len(df))]` (line 159). -/
def alunoNames (n : Nat) : List Val :=
  (List.range n).map (fun i => Val.str ("Aluno " ++ toString (i + 1)))

/-- Lines 158-159: synthesize identifiers when no identifier column exists
(`df.insert(0, "Aluno", ...)`). -/
def alunoStep (df : DataFrame) : DataFrame :=
  if !hasCol df "ALUNO" && !hasCol df "Aluno" then ("Aluno", alunoNames (nRows df)) :: df
  else df

/-- Lines 162-163: standardise an upper-case identifier column to `Aluno`. -/
def alunoRename (df : DataFrame) : DataFrame :=
  if hasCol df "ALUNO" && !hasCol df "Aluno" then renameCol df "ALUNO" "Aluno" else df

/-- Python `str(x)` on a cell: `astype(str)` maps NaN to the text "nan" and
never yields a null.  (The exact decimal rendering of numbers is abstracted;
no claim depends on it.) -/
def pyStrVal : Val → Val
  | Val.num q =>
      Val.str (if q.den = 1 then toString q.num ++ ".0"
               else toString q.num ++ "/" ++ toString q.den)
  | Val.str s => Val.str s
  | Val.null => Val.str "nan"

/-- `df["Aluno"] = df["Aluno"].astype(str)` (line 178), generalised to any
label: stringify the cells of every column labelled `c`. -/
def astypeStrCol (df : DataFrame) (c : String) : DataFrame :=
  df.map (fun col => if col.1 == c then (col.1, col.2.map pyStrVal) else col)

/-! ## Aggregate (`Média Geral`) computation -/

def isStrVal : Val → Bool
  | Val.str _ => true
  | _ => false

def isNumVal : Val → Bool
  | Val.num _ => true
  | _ => false

/-- The numeric entries of a row (pandas `mean` skips NaN). -/
def numsOf (cells : List Val) : List ℚ :=
  cells.filterMap (fun v => match v with | Val.num q => some q | _ => none)

/-- Row mean with NaN skipping: NaN (null) when no numeric entry remains. -/
def rowMeanRaw (cells : List Val) : Val :=
  if (numsOf cells).length = 0 then Val.null
  else Val.num ((numsOf cells).sum / ((numsOf cells).length : ℚ))

/-- `round(x, 2)` with banker's rounding (ties to even), as numpy/pandas
round half to even; exact rationals idealise binary floats.  `Rat.blt` is
the library's boolean strict-order test and `Rat.floor` its floor. -/
def round2 (x : ℚ) : ℚ :=
  ((if Rat.blt (x * 100 - (Rat.floor (x * 100) : ℚ)) (1 / 2) then Rat.floor (x * 100)
    else if Rat.blt (1 / 2) (x * 100 - (Rat.floor (x * 100) : ℚ)) then Rat.floor (x * 100) + 1
    else if Rat.floor (x * 100) % 2 = 0 then Rat.floor (x * 100)
    else Rat.floor (x * 100) + 1 : ℤ) : ℚ) / 100

def roundVal2 : Val → Val
  | Val.num q => Val.num (round2 q)
  | v => v

/-- The rubric cells of row `i`: `df[CRITERIOS]` restricted to one row —
one cell per rubric name, via first-match `getCell`.  When the table has
duplicate labels, pandas selects all matching columns and the program's row
mean can range over more than ten values; the aggregate-mean claim
therefore assumes pairwise-distinct labels, under which this list is
exactly the row of the program's `df[CRITERIOS]`. -/
def critCells (df : DataFrame) (i : Nat) : List Val :=
  CRITERIOS.map (fun c => getCell df c i)

/-- `df[CRITERIOS].mean(axis=1).round(2)`: pandas raises `TypeError` for the
whole operation as soon as any selected cell holds a string (`none` models
the raised exception); otherwise every row gets its NaN-skipping mean,
rounded to 2 decimal places. -/
def computeMeans (df : DataFrame) : Option (List Val) :=
  if (List.range (nRows df)).any (fun i => (critCells df i).any isStrVal) then none
  else some ((List.range (nRows df)).map (fun i => roundVal2 (rowMeanRaw (critCells df i))))

/-- Lines 166-175: compute `Média Geral` when no equivalent column exists;
on failure the `except` branch assigns the scalar 0.0 to the whole column;
a pre-existing `MÉDIA GERAL` column is renamed in place instead. -/
def mediaStep (df : DataFrame) : DataFrame :=
  if !hasCol df "Média Geral" && !hasCol df "MÉDIA GERAL" then
    match computeMeans df with
    | some vals => setCol df "Média Geral" vals
    | none => setCol df "Média Geral" (List.replicate (nRows df) (Val.num 0))
  else if hasCol df "MÉDIA GERAL" && !hasCol df "Média Geral" then
    renameCol df "MÉDIA GERAL" "Média Geral"
  else df

/-- The reconciliation pipeline up to (excluding) the aggregate computation:
lines 153-163. -/
def preAggregate (df0 : DataFrame) : DataFrame :=
  alunoRename (alunoStep (ensure_criterios_columns (map_columns_to_criterios (normalizeCols df0))))

/-- The full module-level reconciliation (lines 151-178): normalization,
mapping, rubric completion, identifier handling, aggregate, identifier
stringification. -/
def reconcile (df0 : DataFrame) : DataFrame :=
  astypeStrCol (mediaStep (preAggregate df0)) "Aluno"

/-! ## Loader, fallback chain and demo data -/

/-- The demo rows of `demo_dataframe` (lines 62-71): identifier plus the ten
rubric scores zipped against `CRITERIOS`. -/
def demoRows : List (String × List ℚ) :=
  [("Beatriz Vitoria", [3, 4, 3, 2, 3, 2, 3, 2, 3, 2]),
   ("Ana Cecilia",     [2, 3, 2, 1, 2, 2, 2, 1, 2, 1]),
   ("Francisco Neto",  [4, 4, 4, 3, 4, 3, 4, 3, 4, 3])]

/-- The demo records as a DataFrame: column `Aluno` then one column per
rubric field in rubric order. -/
def demoBase : DataFrame :=
  ("Aluno", demoRows.map (fun r => Val.str r.1)) ::
  (List.range CRITERIOS.length).map
    (fun j => (CRITERIOS.getD j "", demoRows.map (fun r => Val.num (r.2.getD j 0))))

/-- `demo_dataframe` (lines 62-71): demo records plus
`df["Média Geral"] = df[CRITERIOS].mean(axis=1).round(2)`.  The demo cells
are all numeric, so the `none` branch is unreachable. -/
def demo_dataframe : DataFrame :=
  match computeMeans demoBase with
  | some vals => setCol demoBase "Média Geral" vals
  | none => demoBase

/-- An uploaded file as the loader sees it: a filename, and the outcome that
each pandas parser would produce on its byte stream (`Except.error` models a
raised parse exception; the parsers themselves are external library code). -/
structure Upload where
  name : String
  excelParse : Except String DataFrame
  csvParse : Except String DataFrame

def pyLower (s : String) : String := String.mk (s.data.map lowerChar)

def strEndsWith (s suf : String) : Bool := List.isSuffixOf suf.data s.data

/-- Drop columns whose label starts with `Unnamed`
(`df.loc[:, ~df.columns.str.contains("^Unnamed", na=False)]`). -/
def dropUnnamed (df : DataFrame) : DataFrame :=
  df.filter (fun col => !(List.isPrefixOf "Unnamed".data col.1.data))

/-- `try_read_table` (lines 37-59): dispatch on the lowered filename's
extension, parse, drop `Unnamed` columns; any parse exception is caught
(a warning is shown) and `None` is returned — nothing propagates. -/
def try_read_table (u : Option Upload) : Option DataFrame :=
  match u with
  | none => none
  | some up =>
      let fname := pyLower up.name
      let parsed :=
        if strEndsWith fname ".xls" || strEndsWith fname ".xlsx" || strEndsWith fname ".xlsm"
        then up.excelParse else up.csvParse
      match parsed with
      | Except.ok df => some (dropUnnamed df)
      | Except.error _ => none

/-- Lines 138-149: upload, else the local default CSV (its read outcome is
abstracted as `localFile`), else the built-in demo table. -/
def load_pipeline (u : Option Upload) (localFile : Except String DataFrame) : DataFrame :=
  match try_read_table u with
  | some df => df
  | none =>
      match localFile with
      | Except.ok ldf => dropUnnamed ldf
      | Except.error _ => demo_dataframe

/-- Loading followed by reconciliation: the whole module-level flow. -/
def full_pipeline (u : Option Upload) (localFile : Except String DataFrame) : DataFrame :=
  reconcile (load_pipeline u localFile)

/-- Range test for rubric scores. -/
def valInRange (v : Val) (lo hi : ℚ) : Bool :=
  match v with
  | Val.num q => !(Rat.blt q lo) && !(Rat.blt hi q)
  | _ => false

/-! ## The single-evaluation export (`form_avaliacao` submit handler) -/

/-- The dict written by the form submit handler (line 239): identifier, one
slider value per rubric field in rubric order, then the free-text notes
field ("Observações"). -/
def form_entrada (nome : String) (notas : String → ℚ) (coment : String) :
    List (String × Val) :=
  ("Aluno", Val.str nome) :: CRITERIOS.map (fun c => (c, Val.num (notas c))) ++
    [("Observações", Val.str coment)]

/-- Rendering of a cell in the exported delimited text (numeric formatting
abstracted, no claim depends on it). -/
def csvCell : Val → String
  | Val.num q => if q.den = 1 then toString q.num
                 else toString q.num ++ "/" ++ toString q.den
  | Val.str s => s
  | Val.null => ""

/-- The single-evaluation export (lines 244-248): `DictWriter.writeheader`
then one `writerow` — exactly one header record and one data record, fields
in `entrada` key order. -/
def single_export_records (nome : String) (notas : String → ℚ) (coment : String) :
    List (List String) :=
  [(form_entrada nome notas coment).map Prod.fst,
   (form_entrada nome notas coment).map (fun p => csvCell p.2)]

/-- The download filename (line 250):
`f"avaliacao_{nome.replace(' ', '_')}.csv"` — only the space character is
replaced. -/
def single_export_filename (nome : String) : String :=
  "avaliacao_" ++ pyReplaceChar nome ' ' '_' ++ ".csv"

/-- Modelled from the spec's words, for comparison with the source: a
filename derived from the identifier with every WHITESPACE character
replaced by an underscore. -/
def wsReplaceFilename (nome : String) : String :=
  "avaliacao_" ++ String.mk (nome.data.map (fun c => if isSpaceP c then '_' else c)) ++ ".csv"

/-! ## Facts about the character layer -/

/- The Batteries rational-number operations are `@[irreducible]`, which
blocks `decide` on concrete aggregate values; restore default reducibility
for them (soundness is unaffected: the kernel ignores reducibility
attributes, and the final certificates are kernel-checked). -/
set_option allowUnsafeReducibility true
attribute [local semireducible] Rat.add Rat.sub Rat.mul Rat.inv

theorem upperPairs_snd_fixed : ∀ p ∈ upperPairs, upperChar p.2 = p.2 := by decide

theorem upperChar_idem (c : Char) : upperChar (upperChar c) = upperChar c := by
  cases h : upperPairs.find? (fun p => p.1 == c) with
  | none => simp [upperChar, h]
  | some p =>
      have hmem : p ∈ upperPairs := List.mem_of_find?_eq_some h
      have h1 : upperChar c = p.2 := by simp [upperChar, h]
      rw [h1]
      exact upperPairs_snd_fixed p hmem

/-! ## Facts about whitespace splitting and joining -/

theorem splitWSAux_ne_nil : ∀ (l acc : List Char), ∀ t ∈ splitWSAux l acc, t ≠ [] := by
  intro l
  induction l with
  | nil =>
      intro acc t ht
      by_cases he : acc.isEmpty
      · simp [splitWSAux, he] at ht
      · simp [splitWSAux, he] at ht
        subst ht
        simp only [ne_eq, List.reverse_eq_nil_iff]
        intro h
        rw [h] at he
        exact he rfl
  | cons a as ih =>
      intro acc t ht
      cases hsp : isSpaceP a with
      | true =>
          by_cases he : acc.isEmpty
          · simp [splitWSAux, hsp, he] at ht
            exact ih [] t ht
          · simp [splitWSAux, hsp, he] at ht
            rcases ht with ht | ht
            · subst ht
              simp only [ne_eq, List.reverse_eq_nil_iff]
              intro h
              rw [h] at he
              exact he rfl
            · exact ih [] t ht
      | false =>
          simp [splitWSAux, hsp] at ht
          exact ih (a :: acc) t ht

theorem splitWSAux_nonspace : ∀ (l acc : List Char),
    (∀ c ∈ acc, isSpaceP c = false) →
    ∀ t ∈ splitWSAux l acc, ∀ c ∈ t, isSpaceP c = false := by
  intro l
  induction l with
  | nil =>
      intro acc hacc t ht c hc
      by_cases he : acc.isEmpty
      · simp [splitWSAux, he] at ht
      · simp [splitWSAux, he] at ht
        subst ht
        exact hacc c (List.mem_reverse.mp hc)
  | cons a as ih =>
      intro acc hacc t ht c hc
      cases hsp : isSpaceP a with
      | true =>
          by_cases he : acc.isEmpty
          · simp [splitWSAux, hsp, he] at ht
            exact ih [] (by simp) t ht c hc
          · simp [splitWSAux, hsp, he] at ht
            rcases ht with ht | ht
            · subst ht
              exact hacc c (List.mem_reverse.mp hc)
            · exact ih [] (by simp) t ht c hc
      | false =>
          simp [splitWSAux, hsp] at ht
          refine ih (a :: acc) ?_ t ht c hc
          intro x hx
          rcases List.mem_cons.mp hx with rfl | hx
          · exact hsp
          · exact hacc x hx

theorem splitWSAux_chars (p : Char → Prop) : ∀ (l acc : List Char),
    (∀ c ∈ l, p c) → (∀ c ∈ acc, p c) →
    ∀ t ∈ splitWSAux l acc, ∀ c ∈ t, p c := by
  intro l
  induction l with
  | nil =>
      intro acc _ hacc t ht c hc
      by_cases he : acc.isEmpty
      · simp [splitWSAux, he] at ht
      · simp [splitWSAux, he] at ht
        subst ht
        exact hacc c (List.mem_reverse.mp hc)
  | cons a as ih =>
      intro acc hl hacc t ht c hc
      cases hsp : isSpaceP a with
      | true =>
          by_cases he : acc.isEmpty
          · simp [splitWSAux, hsp, he] at ht
            exact ih [] (fun x hx => hl x (List.mem_cons_of_mem _ hx)) (by simp) t ht c hc
          · simp [splitWSAux, hsp, he] at ht
            rcases ht with ht | ht
            · subst ht
              exact hacc c (List.mem_reverse.mp hc)
            · exact ih [] (fun x hx => hl x (List.mem_cons_of_mem _ hx)) (by simp) t ht c hc
      | false =>
          simp [splitWSAux, hsp] at ht
          refine ih (a :: acc) (fun x hx => hl x (List.mem_cons_of_mem _ hx)) ?_ t ht c hc
          intro x hx
          rcases List.mem_cons.mp hx with rfl | hx
          · exact hl x (List.mem_cons_self _ _)
          · exact hacc x hx

theorem splitWSAux_append (t : List Char) :
    ∀ (l acc : List Char), (∀ c ∈ t, isSpaceP c = false) →
    splitWSAux (t ++ l) acc = splitWSAux l (t.reverse ++ acc) := by
  induction t with
  | nil => intro l acc _; simp
  | cons a t' ih =>
      intro l acc h
      have ha : isSpaceP a = false := h a (List.mem_cons_self _ _)
      have hstep : splitWSAux (a :: (t' ++ l)) acc = splitWSAux (t' ++ l) (a :: acc) := by
        simp [splitWSAux, ha]
      rw [List.cons_append, hstep, ih l (a :: acc) (fun c hc => h c (List.mem_cons_of_mem _ hc))]
      simp [List.append_assoc]

theorem splitWS_joinWS : ∀ ts : List (List Char),
    (∀ t ∈ ts, t ≠ [] ∧ ∀ c ∈ t, isSpaceP c = false) →
    splitWS (joinWS ts) = ts := by
  intro ts
  induction ts with
  | nil => intro _; rfl
  | cons t ts ih =>
      intro h
      obtain ⟨ht0, htc⟩ := h t (List.mem_cons_self _ _)
      cases ts with
      | nil =>
          show splitWSAux (joinWS [t]) [] = [t]
          have hj : joinWS [t] = t ++ [] := by simp [joinWS]
          rw [hj, splitWSAux_append t [] [] htc]
          simp [splitWSAux, ht0]
      | cons u ts' =>
          show splitWSAux (joinWS (t :: u :: ts')) [] = t :: u :: ts'
          have hj : joinWS (t :: u :: ts') = t ++ ' ' :: joinWS (u :: ts') := rfl
          have hrec := ih (fun x hx => h x (List.mem_cons_of_mem _ hx))
          unfold splitWS at hrec
          rw [hj, splitWSAux_append t _ [] htc]
          have hsp : isSpaceP ' ' = true := rfl
          have hne : (t.reverse ++ ([] : List Char)).isEmpty = false := by
            simp [List.isEmpty_iff, ht0]
          have hstep : splitWSAux (' ' :: joinWS (u :: ts')) (t.reverse ++ []) =
              (t.reverse ++ []).reverse :: splitWSAux (joinWS (u :: ts')) [] := by
            simp [splitWSAux, hsp, hne, ht0]
          rw [hstep, hrec]
          simp

theorem head?_mem {α : Type} {l : List α} {a : α} (h : l.head? = some a) : a ∈ l := by
  cases l with
  | nil => cases h
  | cons b t =>
      have hb : b = a := by simpa using h
      simp [hb]

theorem head?_append_left {α : Type} {l l' : List α} (h : l ≠ []) :
    (l ++ l').head? = l.head? := by
  cases l with
  | nil => exact absurd rfl h
  | cons a t => rfl

theorem joinWS_ne_nil {ts : List (List Char)} (h : ∀ t ∈ ts, t ≠ []) (hne : ts ≠ []) :
    joinWS ts ≠ [] := by
  cases ts with
  | nil => exact absurd rfl hne
  | cons t ts =>
      cases ts with
      | nil => exact h t (List.mem_cons_self _ _)
      | cons u ts' =>
          have hj : joinWS (t :: u :: ts') = t ++ ' ' :: joinWS (u :: ts') := rfl
          rw [hj]
          simp

theorem joinWS_head_nonspace {ts : List (List Char)}
    (h : ∀ t ∈ ts, t ≠ [] ∧ ∀ c ∈ t, isSpaceP c = false) :
    ∀ c, (joinWS ts).head? = some c → isSpaceP c = false := by
  intro c hc
  cases ts with
  | nil => simp [joinWS] at hc
  | cons t ts =>
      obtain ⟨ht0, htc⟩ := h t (List.mem_cons_self _ _)
      have hh : (joinWS (t :: ts)).head? = t.head? := by
        cases ts with
        | nil => rfl
        | cons u ts' =>
            have hj : joinWS (t :: u :: ts') = t ++ ' ' :: joinWS (u :: ts') := rfl
            rw [hj]
            exact head?_append_left ht0
      rw [hh] at hc
      exact htc c (head?_mem hc)

theorem joinWS_last_nonspace : ∀ ts : List (List Char),
    (∀ t ∈ ts, t ≠ [] ∧ ∀ c ∈ t, isSpaceP c = false) →
    ∀ c, (joinWS ts).reverse.head? = some c → isSpaceP c = false := by
  intro ts
  induction ts with
  | nil => intro _ c hc; simp [joinWS] at hc
  | cons t ts ih =>
      intro h c hc
      obtain ⟨ht0, htc⟩ := h t (List.mem_cons_self _ _)
      cases ts with
      | nil =>
          have hct : c ∈ t := by
            have := head?_mem hc
            simpa [joinWS] using this
          exact htc c hct
      | cons u ts' =>
          have hj : joinWS (t :: u :: ts') = t ++ ' ' :: joinWS (u :: ts') := rfl
          rw [hj, List.reverse_append, List.reverse_cons, List.append_assoc] at hc
          have hjne : (joinWS (u :: ts')).reverse ≠ [] := by
            have h1 : joinWS (u :: ts') ≠ [] :=
              joinWS_ne_nil (fun x hx => (h x (List.mem_cons_of_mem _ hx)).1) (by simp)
            simpa using h1
          rw [head?_append_left hjne] at hc
          exact ih (fun x hx => h x (List.mem_cons_of_mem _ hx)) c hc

theorem joinWS_chars (p : Char → Prop) (hsp : p ' ') :
    ∀ ts : List (List Char), (∀ t ∈ ts, ∀ c ∈ t, p c) →
    ∀ c ∈ joinWS ts, p c := by
  intro ts
  induction ts with
  | nil => intro _ c hc; simp [joinWS] at hc
  | cons t ts ih =>
      intro h c hc
      cases ts with
      | nil =>
          have hct : c ∈ t := by simpa [joinWS] using hc
          exact h t (List.mem_cons_self _ _) c hct
      | cons u ts' =>
          have hj : joinWS (t :: u :: ts') = t ++ ' ' :: joinWS (u :: ts') := rfl
          rw [hj] at hc
          rcases List.mem_append.mp hc with hc | hc
          · exact h t (List.mem_cons_self _ _) c hc
          · rcases List.mem_cons.mp hc with rfl | hc
            · exact hsp
            · exact ih (fun x hx => h x (List.mem_cons_of_mem _ hx)) c hc

theorem dropWhile_eq_self_of_head {l : List Char}
    (h : ∀ c, l.head? = some c → isSpaceP c = false) :
    l.dropWhile isSpaceP = l := by
  cases l with
  | nil => rfl
  | cons a t =>
      have ha := h a rfl
      simp [List.dropWhile_cons, ha]

theorem stripWS_eq_self {l : List Char}
    (h1 : ∀ c, l.head? = some c → isSpaceP c = false)
    (h2 : ∀ c, l.reverse.head? = some c → isSpaceP c = false) :
    stripWS l = l := by
  unfold stripWS
  rw [dropWhile_eq_self_of_head h1, dropWhile_eq_self_of_head h2, List.reverse_reverse]

/-- C8: header normalization is idempotent — for every input label,
applying `normalize_colname` twice yields the same result as applying it
once. -/
theorem normalize_colname_idempotent (s : String) :
    normalize_colname (normalize_colname s) = normalize_colname s := by
  have hgood : ∀ t ∈ splitWS ((stripWS s.data).map upperChar),
      t ≠ [] ∧ ∀ c ∈ t, isSpaceP c = false := by
    intro t ht
    exact ⟨splitWSAux_ne_nil _ [] t ht, splitWSAux_nonspace _ [] (by simp) t ht⟩
  have hfixl : ∀ c ∈ (stripWS s.data).map upperChar, upperChar c = c := by
    intro c hc
    rcases List.mem_map.mp hc with ⟨x, _, rfl⟩
    exact upperChar_idem x
  have hfixt : ∀ t ∈ splitWS ((stripWS s.data).map upperChar), ∀ c ∈ t, upperChar c = c :=
    splitWSAux_chars (fun c => upperChar c = c) _ [] hfixl (by simp)
  have houtfix : ∀ c ∈ joinWS (splitWS ((stripWS s.data).map upperChar)), upperChar c = c :=
    joinWS_chars (fun c => upperChar c = c) (by decide) _ hfixt
  have hstrip : stripWS (joinWS (splitWS ((stripWS s.data).map upperChar))) =
      joinWS (splitWS ((stripWS s.data).map upperChar)) :=
    stripWS_eq_self (joinWS_head_nonspace hgood) (joinWS_last_nonspace _ hgood)
  have hmap : (joinWS (splitWS ((stripWS s.data).map upperChar))).map upperChar =
      joinWS (splitWS ((stripWS s.data).map upperChar)) := by
    rw [List.map_congr_left houtfix]
    simp
  have hsplit : splitWS (joinWS (splitWS ((stripWS s.data).map upperChar))) =
      splitWS ((stripWS s.data).map upperChar) :=
    splitWS_joinWS _ hgood
  show String.mk (joinWS (splitWS ((stripWS
      (String.mk (joinWS (splitWS ((stripWS s.data).map upperChar)))).data).map upperChar))) =
    String.mk (joinWS (splitWS ((stripWS s.data).map upperChar)))
  have hdata : (String.mk (joinWS (splitWS ((stripWS s.data).map upperChar)))).data =
      joinWS (splitWS ((stripWS s.data).map upperChar)) := rfl
  rw [hdata, hstrip, hmap, hsplit]

/-! ## Facts about the rubric mapper -/

theorem hasKeyB_iff (m : List (String × String)) (k : String) :
    hasKeyB m k = true ↔ ∃ p ∈ m, p.1 = k := by
  simp [hasKeyB, List.any_eq_true]

theorem hasKeyB_false_not_mem {m : List (String × String)} {k : String}
    (h : hasKeyB m k = false) : k ∉ m.map Prod.fst := by
  intro hk
  rcases List.mem_map.mp hk with ⟨p, hp, hpk⟩
  have : hasKeyB m k = true := (hasKeyB_iff m k).mpr ⟨p, hp, hpk⟩
  rw [this] at h
  cases h

theorem hasValB_false_not_mem {m : List (String × String)} {v : String}
    (h : hasValB m v = false) : v ∉ m.map Prod.snd := by
  intro hv
  rcases List.mem_map.mp hv with ⟨p, hp, hpv⟩
  have : hasValB m v = true := by
    unfold hasValB
    rw [List.any_eq_true]
    exact ⟨p, hp, by simp [hpv]⟩
  rw [this] at h
  cases h

theorem head?_isSome_of_ne_nil {α : Type} {l : List α} (h : l ≠ []) :
    ∃ a, l.head? = some a := by
  cases l with
  | nil => exact absurd rfl h
  | cons a t => exact ⟨a, rfl⟩

theorem invIndexGet_norm {cols : List String} {n k : String}
    (h : invIndexGet cols n = some k) : normalize_colname k = n ∧ k ∈ cols := by
  unfold invIndexGet at h
  have hk := head?_mem h
  rw [List.mem_reverse] at hk
  have h1 := List.mem_filter.mp hk
  exact ⟨by simpa using h1.2, h1.1⟩

theorem invIndexGet_isSome {cols : List String} {c : String} (hc : c ∈ cols)
    {n : String} (hn : normalize_colname c = n) :
    ∃ k, invIndexGet cols n = some k := by
  unfold invIndexGet
  have hmem : c ∈ cols.filter (fun x => normalize_colname x == n) := by
    rw [List.mem_filter]
    exact ⟨hc, by simp [hn]⟩
  have hne : (cols.filter (fun x => normalize_colname x == n)).reverse ≠ [] := by
    simp only [ne_eq, List.reverse_eq_nil_iff]
    exact List.ne_nil_of_mem hmem
  exact head?_isSome_of_ne_nil hne

theorem dictInsert_mem_self (m : List (String × String)) (k v : String) :
    (k, v) ∈ dictInsert m k v := by
  cases h : hasKeyB m k with
  | true =>
      simp only [dictInsert, h, if_true]
      rcases (hasKeyB_iff m k).mp h with ⟨p, hp, hpk⟩
      refine List.mem_map.mpr ⟨p, hp, ?_⟩
      simp [hpk]
  | false =>
      simp [dictInsert, h]

theorem mem_dictInsert_of_ne {m : List (String × String)} {p : String × String}
    (hp : p ∈ m) {k v : String} (hne : p.1 ≠ k) : p ∈ dictInsert m k v := by
  cases h : hasKeyB m k with
  | true =>
      simp only [dictInsert, h, if_true]
      refine List.mem_map.mpr ⟨p, hp, ?_⟩
      simp [hne]
  | false =>
      simp only [dictInsert, h]
      simp [hp]

theorem mem_dictInsert_cases {m : List (String × String)} {k v : String}
    {q : String × String} (hq : q ∈ dictInsert m k v) : q = (k, v) ∨ q ∈ m := by
  cases h : hasKeyB m k with
  | true =>
      simp only [dictInsert, h, if_true] at hq
      rcases List.mem_map.mp hq with ⟨p, hp, hpq⟩
      by_cases hpk : p.1 == k
      · simp [hpk] at hpq
        exact Or.inl hpq.symm
      · simp [hpk] at hpq
        exact Or.inr (hpq ▸ hp)
  | false =>
      simp only [dictInsert, h] at hq
      simp at hq
      rcases hq with hq | hq
      · exact Or.inr hq
      · exact Or.inl (by simp [hq])

theorem keys_dictInsert_of_hasKey {m : List (String × String)} {k v : String}
    (h : hasKeyB m k = true) :
    (dictInsert m k v).map Prod.fst = m.map Prod.fst := by
  simp only [dictInsert, h, if_true, List.map_map]
  apply List.map_congr_left
  intro p _
  by_cases hpk : p.1 = k
  · simp [hpk]
  · simp [hpk]

theorem keys_dictInsert_of_not {m : List (String × String)} {k v : String}
    (h : hasKeyB m k = false) :
    (dictInsert m k v).map Prod.fst = m.map Prod.fst ++ [k] := by
  simp [dictInsert, h]

theorem exactStep_inv {cols : List String} {m : List (String × String)}
    (h : ExactInv cols m) (crit : String) : ExactInv cols (exactStep cols m crit) := by
  obtain ⟨h1, h2⟩ := h
  unfold exactStep
  cases hk : invIndexGet cols crit with
  | none => exact ⟨h1, h2⟩
  | some key =>
      constructor
      · intro p hp
        rcases mem_dictInsert_cases hp with rfl | hp2
        · exact hk
        · exact h1 p hp2
      · cases hhk : hasKeyB m key with
        | true => rw [keys_dictInsert_of_hasKey hhk]; exact h2
        | false =>
            rw [keys_dictInsert_of_not hhk, List.nodup_append]
            exact ⟨h2, by simp, by
              intro x hx hx2
              simp at hx2
              subst hx2
              exact hasKeyB_false_not_mem hhk hx⟩

theorem exact_fold_inv (cols : List String) :
    ∀ (crits : List String) (m : List (String × String)), ExactInv cols m →
    ExactInv cols (crits.foldl (exactStep cols) m) := by
  intro crits
  induction crits with
  | nil => intro m h; exact h
  | cons c cs ih => intro m h; exact ih _ (exactStep_inv h c)

theorem nodup_snd_of_fn (F : String → Option String) :
    ∀ (m : List (String × String)), (∀ p ∈ m, F p.2 = some p.1) →
    (m.map Prod.fst).Nodup → (m.map Prod.snd).Nodup := by
  intro m
  induction m with
  | nil => intro _ _; simp
  | cons p rest ih =>
      intro hF hK
      simp only [List.map_cons, List.nodup_cons] at hK ⊢
      refine ⟨?_, ih (fun q hq => hF q (List.mem_cons_of_mem _ hq)) hK.2⟩
      intro hmem
      rcases List.mem_map.mp hmem with ⟨q, hq, hq2⟩
      have h1 : F q.2 = some q.1 := hF q (List.mem_cons_of_mem _ hq)
      have h2 : F p.2 = some p.1 := hF p (List.mem_cons_self _ _)
      rw [hq2] at h1
      rw [h1] at h2
      have hqp : q.1 = p.1 := by
        injection h2
      exact hK.1 (List.mem_map.mpr ⟨q, hq, hqp⟩)

theorem findHeurKey_not_hasKey (cols : List String) (m : List (String × String))
    (crit : String) :
    ∀ (l : List String) {key : String}, findHeurKey cols m crit l = some key →
    hasKeyB m key = false := by
  intro l
  induction l with
  | nil => intro key h; cases h
  | cons orig rest ih =>
      intro key h
      unfold findHeurKey at h
      cases hidx : invIndexGet cols (normalize_colname orig) with
      | none =>
          rw [hidx] at h
          exact ih h
      | some k2 =>
          rw [hidx] at h
          cases hhk : hasKeyB m k2 with
          | true =>
              simp only [hhk, if_true] at h
              exact ih h
          | false =>
              simp only [hhk, Bool.false_eq_true, if_false] at h
              cases hm : heurMatches crit (normalize_colname orig) with
              | false =>
                  simp only [hm, Bool.false_eq_true, if_false] at h
                  exact ih h
              | true =>
                  simp only [hm, if_true] at h
                  cases hex : excludedHeader (normalize_colname orig) with
                  | true =>
                      simp only [hex, if_true] at h
                      exact ih h
                  | false =>
                      simp only [hex, Bool.false_eq_true, if_false] at h
                      have : k2 = key := by injection h
                      rw [← this]
                      exact hhk

theorem heurStep_inv {cols : List String} {m : List (String × String)}
    (h : HeurInv m) (crit : String) : HeurInv (heurStep cols m crit) := by
  obtain ⟨h1, h2⟩ := h
  unfold heurStep
  cases hv : hasValB m crit with
  | true => exact ⟨h1, h2⟩
  | false =>
      simp only [Bool.false_eq_true, if_false]
      cases hf : findHeurKey cols m crit cols.eraseDups with
      | none => exact ⟨h1, h2⟩
      | some key =>
          have hk : hasKeyB m key = false := findHeurKey_not_hasKey cols m crit _ hf
          have hins : dictInsert m key crit = m ++ [(key, crit)] := by
            simp [dictInsert, hk]
          show HeurInv (dictInsert m key crit)
          rw [hins]
          constructor
          · simp only [List.map_append, List.map_cons, List.map_nil, List.nodup_append]
            exact ⟨h1, by simp, by
              intro x hx hx2
              simp at hx2
              subst hx2
              exact hasKeyB_false_not_mem hk hx⟩
          · simp only [List.map_append, List.map_cons, List.map_nil, List.nodup_append]
            exact ⟨h2, by simp, by
              intro x hx hx2
              simp at hx2
              subst hx2
              exact hasValB_false_not_mem hv hx⟩

theorem heur_fold_inv (cols : List String) :
    ∀ (crits : List String) (m : List (String × String)), HeurInv m →
    HeurInv (crits.foldl (heurStep cols) m) := by
  intro crits
  induction crits with
  | nil => intro m h; exact h
  | cons c cs ih => intro m h; exact ih _ (heurStep_inv h c)

/-- The `col_map` produced by the two passes has pairwise-distinct raw-header
keys and pairwise-distinct rubric-field values. -/
theorem col_map_nodup (cols : List String) :
    ((col_map cols).map Prod.fst).Nodup ∧ ((col_map cols).map Prod.snd).Nodup := by
  have hex : ExactInv cols (CRITERIOS.foldl (exactStep cols) []) :=
    exact_fold_inv cols CRITERIOS [] ⟨by simp, by simp⟩
  have hvals := nodup_snd_of_fn (invIndexGet cols) _ hex.1 hex.2
  exact heur_fold_inv cols CRITERIOS _ ⟨hex.2, hvals⟩

theorem exactStep_preserves_entry {cols : List String} {m : List (String × String)}
    {key crit : String} (hmem : (key, crit) ∈ m)
    (hk : invIndexGet cols crit = some key) (crit' : String) :
    (key, crit) ∈ exactStep cols m crit' := by
  unfold exactStep
  cases hk2 : invIndexGet cols crit' with
  | none => exact hmem
  | some key2 =>
      by_cases hkk : key = key2
      · subst hkk
        have e1 := (invIndexGet_norm hk).1
        have e2 := (invIndexGet_norm hk2).1
        have hce : crit = crit' := e1.symm.trans e2
        subst hce
        exact dictInsert_mem_self m key crit
      · exact mem_dictInsert_of_ne hmem hkk

theorem exact_fold_preserves {cols : List String} {key crit : String}
    (hk : invIndexGet cols crit = some key) :
    ∀ (crits : List String) (m : List (String × String)), (key, crit) ∈ m →
    (key, crit) ∈ crits.foldl (exactStep cols) m := by
  intro crits
  induction crits with
  | nil => intro m h; exact h
  | cons c cs ih => intro m h; exact ih _ (exactStep_preserves_entry h hk c)

theorem exact_fold_entry {cols : List String} {crit key : String}
    (hk : invIndexGet cols crit = some key) :
    ∀ (crits : List String) (m : List (String × String)), crit ∈ crits →
    (key, crit) ∈ crits.foldl (exactStep cols) m := by
  intro crits
  induction crits with
  | nil => intro m h; simp at h
  | cons c cs ih =>
      intro m hc
      rcases List.mem_cons.mp hc with he | hc
      · subst he
        have hstep : exactStep cols m crit = dictInsert m key crit := by
          unfold exactStep
          rw [hk]
        have h1 : (key, crit) ∈ exactStep cols m crit := by
          rw [hstep]
          exact dictInsert_mem_self m key crit
        exact exact_fold_preserves hk cs _ h1
      · exact ih _ hc

theorem heurStep_preserves_entry {cols : List String} {m : List (String × String)}
    {key crit : String} (hmem : (key, crit) ∈ m) (crit' : String) :
    (key, crit) ∈ heurStep cols m crit' := by
  unfold heurStep
  cases hv : hasValB m crit' with
  | true => exact hmem
  | false =>
      simp only [Bool.false_eq_true, if_false]
      cases hf : findHeurKey cols m crit' cols.eraseDups with
      | none => exact hmem
      | some key2 =>
          show (key, crit) ∈ dictInsert m key2 crit'
          have hk2 : hasKeyB m key2 = false := findHeurKey_not_hasKey cols m crit' _ hf
          have hne : key ≠ key2 := by
            intro he
            subst he
            have : hasKeyB m key = true := (hasKeyB_iff _ _).mpr ⟨(key, crit), hmem, rfl⟩
            rw [this] at hk2
            cases hk2
          exact mem_dictInsert_of_ne hmem hne

theorem heur_fold_preserves {cols : List String} {key crit : String} :
    ∀ (crits : List String) (m : List (String × String)), (key, crit) ∈ m →
    (key, crit) ∈ crits.foldl (heurStep cols) m := by
  intro crits
  induction crits with
  | nil => intro m h; exact h
  | cons c cs ih => intro m h; exact ih _ (heurStep_preserves_entry h c)

theorem mem_snd_unique :
    ∀ {m : List (String × String)}, (m.map Prod.snd).Nodup →
    ∀ {k k' v : String}, (k, v) ∈ m → (k', v) ∈ m → k = k' := by
  intro m
  induction m with
  | nil => intro _ k k' v h; simp at h
  | cons p rest ih =>
      intro hnd k k' v h1 h2
      simp only [List.map_cons, List.nodup_cons] at hnd
      rcases List.mem_cons.mp h1 with e1 | h1
      · rcases List.mem_cons.mp h2 with e2 | h2
        · rw [← e2] at e1
          exact (Prod.ext_iff.mp e1).1
        · exact absurd (List.mem_map.mpr ⟨(k', v), h2, by rw [← e1]⟩) hnd.1
      · rcases List.mem_cons.mp h2 with e2 | h2
        · exact absurd (List.mem_map.mpr ⟨(k, v), h1, by rw [← e2]⟩) hnd.1
        · exact ih hnd.2 h1 h2

/-- C4: whenever some raw header's canonical form equals a rubric field name
exactly, `col_map` maps that field — and maps it only to a header whose
canonical form is that exact field name, never to a header chosen by the
heuristic substring pass. -/
theorem col_map_exact_precedence (cols : List String) (crit : String)
    (hc : crit ∈ CRITERIOS) (hex : ∃ c ∈ cols, normalize_colname c = crit) :
    (∃ k, (k, crit) ∈ col_map cols ∧ normalize_colname k = crit) ∧
    (∀ k, (k, crit) ∈ col_map cols → normalize_colname k = crit) := by
  obtain ⟨c, hcc, hcn⟩ := hex
  obtain ⟨key, hk⟩ := invIndexGet_isSome hcc hcn
  have hentry0 : (key, crit) ∈ CRITERIOS.foldl (exactStep cols) [] :=
    exact_fold_entry hk CRITERIOS [] hc
  have hentry : (key, crit) ∈ col_map cols := heur_fold_preserves CRITERIOS _ hentry0
  have hknorm : normalize_colname key = crit := (invIndexGet_norm hk).1
  refine ⟨⟨key, hentry, hknorm⟩, ?_⟩
  intro k' hk'
  have hkey : k' = key := mem_snd_unique (col_map_nodup cols).2 hk' hentry
  rw [hkey, hknorm]

/-- Witness for C4 at a concrete header list: the rubric field `TEORIA` has an
exact canonical match among the headers `["nome", "teoria"]`. -/
theorem col_map_exact_precedence_witness :
    ("TEORIA" ∈ CRITERIOS ∧ ∃ c ∈ ["nome", "teoria"], normalize_colname c = "TEORIA") ∧
    ((∃ k, (k, "TEORIA") ∈ col_map ["nome", "teoria"] ∧ normalize_colname k = "TEORIA") ∧
     (∀ k, (k, "TEORIA") ∈ col_map ["nome", "teoria"] → normalize_colname k = "TEORIA")) :=
  ⟨⟨by decide, by decide⟩,
   col_map_exact_precedence ["nome", "teoria"] "TEORIA" (by decide) (by decide)⟩

/-- C5: for every header list, the mapping built by the rubric mapper is
one-to-one — no raw header occurs as the key of two entries and no rubric
field occurs as the value of two entries. -/
theorem col_map_one_to_one (cols : List String) :
    ((col_map cols).map Prod.fst).Nodup ∧ ((col_map cols).map Prod.snd).Nodup :=
  col_map_nodup cols

/-! ## Basic facts about the DataFrame operations -/

theorem hasCol_iff {df : DataFrame} {x : String} :
    hasCol df x = true ↔ ∃ col ∈ df, col.1 = x := by
  simp [hasCol, List.any_eq_true]

theorem hasCol_cons_of {df : DataFrame} {x : String} (h : hasCol df x = true)
    (col : Column) : hasCol (col :: df) x = true := by
  rcases hasCol_iff.mp h with ⟨c, hc, hcx⟩
  exact hasCol_iff.mpr ⟨c, List.mem_cons_of_mem _ hc, hcx⟩

theorem hasCol_append_left {df : DataFrame} {x : String} (h : hasCol df x = true)
    (l : DataFrame) : hasCol (df ++ l) x = true := by
  rcases hasCol_iff.mp h with ⟨c, hc, hcx⟩
  exact hasCol_iff.mpr ⟨c, List.mem_append_left _ hc, hcx⟩

theorem hasCol_setCol_self (df : DataFrame) (c : String) (vs : List Val) :
    hasCol (setCol df c vs) c = true := by
  cases h : hasCol df c with
  | true =>
      simp only [setCol, h, if_true]
      rcases hasCol_iff.mp h with ⟨col, hcol, hcx⟩
      refine hasCol_iff.mpr ⟨(col.1, vs), List.mem_map.mpr ⟨col, hcol, by simp [hcx]⟩, hcx⟩
  | false =>
      simp only [setCol, h, Bool.false_eq_true, if_false]
      exact hasCol_iff.mpr ⟨(c, vs), by simp, rfl⟩

theorem hasCol_setCol_of {df : DataFrame} {x : String} (h : hasCol df x = true)
    (c : String) (vs : List Val) : hasCol (setCol df c vs) x = true := by
  cases hc : hasCol df c with
  | true =>
      simp only [setCol, hc, if_true]
      rcases hasCol_iff.mp h with ⟨col, hcol, hcx⟩
      by_cases hxc : col.1 = c
      · refine hasCol_iff.mpr ⟨(col.1, vs), List.mem_map.mpr ⟨col, hcol, by simp [hxc]⟩, hcx⟩
      · refine hasCol_iff.mpr ⟨col, List.mem_map.mpr ⟨col, hcol, by simp [hxc]⟩, hcx⟩
  | false =>
      simp only [setCol, hc, Bool.false_eq_true, if_false]
      exact hasCol_append_left h _

theorem hasCol_renameCol_of_ne {df : DataFrame} {x : String} (h : hasCol df x = true)
    {a : String} (hne : x ≠ a) (b : String) : hasCol (renameCol df a b) x = true := by
  rcases hasCol_iff.mp h with ⟨col, hcol, hcx⟩
  refine hasCol_iff.mpr ⟨(if col.1 == a then b else col.1, col.2),
    List.mem_map.mpr ⟨col, hcol, rfl⟩, ?_⟩
  have hfalse : (col.1 == a) = false := by
    simp only [beq_eq_false_iff_ne, ne_eq]
    rw [hcx]
    exact hne
  simp only [hfalse, Bool.false_eq_true, if_false]
  exact hcx

theorem hasCol_renameCol_target {df : DataFrame} {a : String} (h : hasCol df a = true)
    (b : String) : hasCol (renameCol df a b) b = true := by
  rcases hasCol_iff.mp h with ⟨col, hcol, hcx⟩
  refine hasCol_iff.mpr ⟨(if col.1 == a then b else col.1, col.2),
    List.mem_map.mpr ⟨col, hcol, rfl⟩, ?_⟩
  simp [hcx]

theorem colLabels_astype (df : DataFrame) (c : String) :
    colLabels (astypeStrCol df c) = colLabels df := by
  simp only [colLabels, astypeStrCol, List.map_map]
  apply List.map_congr_left
  intro col _
  by_cases h : col.1 = c
  · simp [h]
  · simp [h]

theorem hasCol_astype (df : DataFrame) (c x : String) :
    hasCol (astypeStrCol df c) x = hasCol df x := by
  cases h : hasCol df x with
  | true =>
      rcases hasCol_iff.mp h with ⟨col, hcol, hcx⟩
      apply hasCol_iff.mpr
      by_cases hc : col.1 = c
      · exact ⟨(col.1, col.2.map pyStrVal), List.mem_map.mpr ⟨col, hcol, by simp [hc]⟩, hcx⟩
      · exact ⟨col, List.mem_map.mpr ⟨col, hcol, by simp [hc]⟩, hcx⟩
  | false =>
      cases h2 : hasCol (astypeStrCol df c) x with
      | false => rfl
      | true =>
          rcases hasCol_iff.mp h2 with ⟨col, hcol, hcx⟩
          rcases List.mem_map.mp hcol with ⟨col0, hcol0, hg⟩
          have : col.1 = col0.1 := by
            by_cases hc : col0.1 = c
            · rw [← hg]; simp [hc]
            · rw [← hg]; simp [hc]
          exact absurd (hasCol_iff.mpr ⟨col0, hcol0, by rw [← this, hcx]⟩) (by simp [h])

theorem hasCol_renameWith_of_none {df : DataFrame} {x : String} (h : hasCol df x = true)
    {m : List (String × String)} (hm : m.find? (fun p => p.1 == x) = none) :
    hasCol (renameWith df m) x = true := by
  rcases hasCol_iff.mp h with ⟨col, hcol, hcx⟩
  refine hasCol_iff.mpr ⟨(((m.find? (fun p => p.1 == col.1)).map Prod.snd).getD col.1, col.2),
    List.mem_map.mpr ⟨col, hcol, rfl⟩, ?_⟩
  rw [hcx, hm]
  simp

/-! ## Row counts and rectangularity through the operations -/

theorem nRows_map_of_len {g : Column → Column}
    (hg : ∀ col, ((g col).2).length = col.2.length) (df : DataFrame) :
    nRows (df.map g) = nRows df := by
  cases df with
  | nil => rfl
  | cons col rest => exact hg col

theorem nRows_append_single {df : DataFrame} (h : df ≠ []) (x : Column) :
    nRows (df ++ [x]) = nRows df := by
  cases df with
  | nil => exact absurd rfl h
  | cons col rest => rfl

theorem wf_map_of_len {g : Column → Column}
    (hg : ∀ col, ((g col).2).length = col.2.length) {df : DataFrame}
    (h : Wellformed df) : Wellformed (df.map g) := by
  intro col hcol
  rcases List.mem_map.mp hcol with ⟨col0, hcol0, hgc⟩
  rw [← hgc, hg col0, nRows_map_of_len hg]
  exact h col0 hcol0

theorem wf_append_single {df : DataFrame} (h : Wellformed df) {c : String}
    {vs : List Val} (hlen : vs.length = nRows df) : Wellformed (df ++ [(c, vs)]) := by
  cases df with
  | nil =>
      intro col hcol
      simp at hcol
      subst hcol
      rfl
  | cons col0 rest =>
      intro col hcol
      rw [nRows_append_single (by simp) _]
      rcases List.mem_append.mp hcol with hc | hc
      · exact h col hc
      · simp at hc
        subst hc
        exact hlen

theorem wf_cons_front {df : DataFrame} (h : Wellformed df) {c : String}
    {vs : List Val} (hlen : vs.length = nRows df) : Wellformed ((c, vs) :: df) := by
  intro col hcol
  have hn : nRows ((c, vs) :: df) = nRows df := hlen
  rcases List.mem_cons.mp hcol with he | hc
  · subst he
    rw [hn]
    exact hlen
  · rw [hn]
    exact h col hc

theorem wf_filter {df : DataFrame} (h : Wellformed df) (q : Column → Bool) :
    Wellformed (df.filter q) := by
  intro col hcol
  have ec : col.2.length = nRows df := h col (List.mem_filter.mp hcol).1
  cases hf : df.filter q with
  | nil =>
      rw [hf] at hcol
      simp at hcol
  | cons col0 rest =>
      have h0 : col0 ∈ df.filter q := by
        rw [hf]
        exact List.mem_cons_self _ _
      have e0 : col0.2.length = nRows df := h col0 (List.mem_filter.mp h0).1
      show col.2.length = col0.2.length
      rw [e0, ec]

theorem nRows_setCol_of_not {df : DataFrame} {c : String} (h : hasCol df c = false)
    (hne : df ≠ []) (vs : List Val) : nRows (setCol df c vs) = nRows df := by
  simp only [setCol, h, Bool.false_eq_true, if_false]
  exact nRows_append_single hne _

theorem setCol_of_not {df : DataFrame} {c : String} (h : hasCol df c = false)
    (vs : List Val) : setCol df c vs = df ++ [(c, vs)] := by
  simp [setCol, h]

/-! ## Cell lookup facts -/

theorem findCol_some {df : DataFrame} {c : String} {col : Column}
    (h : findCol df c = some col) : col.1 = c ∧ col ∈ df := by
  have h1 := List.find?_some h
  have h2 := List.mem_of_find?_eq_some h
  exact ⟨by simpa using h1, h2⟩

theorem hasCol_findCol {df : DataFrame} {c : String} (h : hasCol df c = true) :
    ∃ col, findCol df c = some col := by
  cases hf : findCol df c with
  | some col => exact ⟨col, rfl⟩
  | none =>
      rcases hasCol_iff.mp h with ⟨col, hcol, hcx⟩
      have := List.find?_eq_none.mp hf col hcol
      rw [hcx] at this
      simp at this

theorem findCol_not_has {df : DataFrame} {c : String} (h : hasCol df c = false) :
    findCol df c = none := by
  cases hf : findCol df c with
  | none => rfl
  | some col =>
      obtain ⟨h1, h2⟩ := findCol_some hf
      have : hasCol df c = true := hasCol_iff.mpr ⟨col, h2, h1⟩
      rw [this] at h
      cases h

theorem findCol_append_of_not {df : DataFrame} {c : String} (h : hasCol df c = false)
    (vs : List Val) : findCol (df ++ [(c, vs)]) c = some (c, vs) := by
  induction df with
  | nil => simp [findCol, List.find?]
  | cons col rest ih =>
      have h1 : (col.1 == c) = false := by
        cases hcc : col.1 == c with
        | false => rfl
        | true =>
            have : hasCol (col :: rest) c = true :=
              hasCol_iff.mpr ⟨col, List.mem_cons_self _ _, beq_iff_eq.mp hcc⟩
            rw [this] at h
            cases h
      have h2 : hasCol rest c = false := by
        cases hr : hasCol rest c with
        | false => rfl
        | true =>
            have := hasCol_cons_of hr col
            rw [this] at h
            cases h
      simp only [List.cons_append, findCol, List.find?, h1]
      exact ih h2

theorem getCell_append_of_not {df : DataFrame} {c : String} (h : hasCol df c = false)
    (vs : List Val) (i : Nat) :
    getCell (df ++ [(c, vs)]) c i = vs.getD i Val.null := by
  simp [getCell, findCol_append_of_not h vs]

theorem findCol_astype_other {df : DataFrame} {c x : String} (hne : x ≠ c) :
    findCol (astypeStrCol df c) x = findCol df x := by
  induction df with
  | nil => rfl
  | cons col rest ih =>
      by_cases hc : col.1 = c
      · have hx : (col.1 == x) = false := by
          simp only [beq_eq_false_iff_ne, ne_eq, hc]
          exact fun he => hne he.symm
        simp only [astypeStrCol, List.map_cons, findCol, List.find?, hc]
        simp only [beq_self_eq_true, if_true]
        have hx2 : (c == x) = false := by
          simp only [beq_eq_false_iff_ne, ne_eq]
          exact fun he => hne he.symm
        rw [hx2]
        rw [hc] at hx
        rw [hx2] at hx
        simpa [astypeStrCol, findCol] using ih
      · simp only [astypeStrCol, List.map_cons, findCol, List.find?]
        have : (col.1 == c) = false := by simpa using hc
        rw [this]
        simp only [Bool.false_eq_true, if_false]
        cases hcx : col.1 == x with
        | true => rfl
        | false => simpa [astypeStrCol, findCol] using ih

theorem getCell_astype_other {df : DataFrame} {c x : String} (hne : x ≠ c) (i : Nat) :
    getCell (astypeStrCol df c) x i = getCell df x i := by
  simp [getCell, findCol_astype_other hne]

/-! ## List indexing helpers -/

theorem getD_range_map {α : Type} (f : Nat → α) {n i : Nat} (h : i < n) (d : α) :
    ((List.range n).map f).getD i d = f i := by
  have hlen : i < ((List.range n).map f).length := by simpa using h
  rw [List.getD_eq_getElem _ _ hlen]
  simp

theorem getD_replicate_of_lt {α : Type} {n i : Nat} (h : i < n) (a d : α) :
    (List.replicate n a).getD i d = a := by
  have hlen : i < (List.replicate n a).length := by simpa using h
  rw [List.getD_eq_getElem _ _ hlen]
  simp

/-! ## Facts about the aggregate computation -/

theorem computeMeans_some_length {df : DataFrame} {vals : List Val}
    (h : computeMeans df = some vals) : vals.length = nRows df := by
  unfold computeMeans at h
  cases hc : (List.range (nRows df)).any (fun i => (critCells df i).any isStrVal) with
  | true => rw [hc] at h; simp at h
  | false =>
      rw [hc] at h
      simp only [Bool.false_eq_true, if_false, Option.some.injEq] at h
      rw [← h]
      simp

theorem computeMeans_some_getD {df : DataFrame} {vals : List Val}
    (h : computeMeans df = some vals) {i : Nat} (hi : i < nRows df) :
    vals.getD i Val.null = roundVal2 (rowMeanRaw (critCells df i)) := by
  unfold computeMeans at h
  cases hc : (List.range (nRows df)).any (fun i => (critCells df i).any isStrVal) with
  | true => rw [hc] at h; simp at h
  | false =>
      rw [hc] at h
      simp only [Bool.false_eq_true, if_false, Option.some.injEq] at h
      rw [← h]
      exact getD_range_map _ hi _

theorem computeMeans_eq_some {df : DataFrame}
    (h : ∀ i, i < nRows df → ∀ c ∈ CRITERIOS, isStrVal (getCell df c i) = false) :
    computeMeans df =
      some ((List.range (nRows df)).map (fun i => roundVal2 (rowMeanRaw (critCells df i)))) := by
  unfold computeMeans
  have hcond : (List.range (nRows df)).any (fun i => (critCells df i).any isStrVal) = false := by
    cases hc : (List.range (nRows df)).any (fun i => (critCells df i).any isStrVal) with
    | false => rfl
    | true =>
        exfalso
        rcases List.any_eq_true.mp hc with ⟨i, hi, hcell⟩
        rcases List.any_eq_true.mp hcell with ⟨v, hv, hstr⟩
        rcases List.mem_map.mp hv with ⟨c, hcrit, hvc⟩
        have := h i (List.mem_range.mp hi) c hcrit
        rw [hvc] at this
        rw [this] at hstr
        cases hstr
  rw [hcond]
  simp

theorem numsOf_all_num : ∀ cells : List Val, (∀ v ∈ cells, isNumVal v = true) →
    (numsOf cells).length = cells.length := by
  intro cells
  induction cells with
  | nil => intro _; rfl
  | cons v rest ih =>
      intro h
      have hv := h v (List.mem_cons_self _ _)
      cases v with
      | num q =>
          simp only [numsOf, List.filterMap_cons]
          simp only [List.length_cons]
          have := ih (fun x hx => h x (List.mem_cons_of_mem _ hx))
          simp only [numsOf] at this
          rw [this]
      | str s => simp [isNumVal] at hv
      | null => simp [isNumVal] at hv

theorem rowMeanRaw_all_num {cells : List Val} (h : ∀ v ∈ cells, isNumVal v = true)
    (hne : cells ≠ []) :
    rowMeanRaw cells = Val.num ((numsOf cells).sum / (cells.length : ℚ)) := by
  have hlen : (numsOf cells).length = cells.length := numsOf_all_num cells h
  have hpos : (numsOf cells).length ≠ 0 := by
    rw [hlen]
    simpa using hne
  unfold rowMeanRaw
  rw [if_neg hpos, hlen]

/-! ## Facts about `ensure_criterios_columns` -/

theorem ensureStep_self (d : DataFrame) (c : String) : hasCol (ensureStep d c) c = true := by
  unfold ensureStep
  cases h : hasCol d c with
  | true => simp [h]
  | false =>
      simp only [h, Bool.false_eq_true, if_false]
      exact hasCol_setCol_self d c _

theorem ensureStep_mono {d : DataFrame} {x : String} (h : hasCol d x = true) (c : String) :
    hasCol (ensureStep d c) x = true := by
  unfold ensureStep
  cases hc : hasCol d c with
  | true => simpa [hc] using h
  | false =>
      simp only [hc, Bool.false_eq_true, if_false]
      exact hasCol_setCol_of h c _

theorem ensure_fold_mono : ∀ (l : List String) (d : DataFrame) (x : String),
    hasCol d x = true → hasCol (l.foldl ensureStep d) x = true := by
  intro l
  induction l with
  | nil => intro d x h; exact h
  | cons c cs ih => intro d x h; exact ih _ x (ensureStep_mono h c)

theorem ensure_fold_mem : ∀ (l : List String) (d : DataFrame) (c : String), c ∈ l →
    hasCol (l.foldl ensureStep d) c = true := by
  intro l
  induction l with
  | nil => intro d c h; simp at h
  | cons a cs ih =>
      intro d c hc
      rcases List.mem_cons.mp hc with he | hc
      · subst he
        exact ensure_fold_mono cs _ c (ensureStep_self d c)
      · exact ih _ c hc

theorem wf_ensureStep {d : DataFrame} (h : Wellformed d) (c : String) :
    Wellformed (ensureStep d c) := by
  unfold ensureStep
  cases hc : hasCol d c with
  | true => simpa [hc] using h
  | false =>
      simp only [hc, Bool.false_eq_true, if_false]
      rw [setCol_of_not hc]
      exact wf_append_single h (by simp)

theorem wf_ensure_fold : ∀ (l : List String) (d : DataFrame), Wellformed d →
    Wellformed (l.foldl ensureStep d) := by
  intro l
  induction l with
  | nil => intro d h; exact h
  | cons c cs ih => intro d h; exact ih _ (wf_ensureStep h c)

/-! ## Facts about the identifier and aggregate stages -/

theorem criterios_not_special : ∀ c ∈ CRITERIOS,
    c ≠ "ALUNO" ∧ c ≠ "Aluno" ∧ c ≠ "MÉDIA GERAL" ∧ c ≠ "Média Geral" := by decide

theorem ne_nil_of_hasCol {df : DataFrame} {x : String} (h : hasCol df x = true) :
    df ≠ [] := by
  intro he
  subst he
  simp [hasCol] at h

theorem alunoStep_mono {d : DataFrame} {x : String} (h : hasCol d x = true) :
    hasCol (alunoStep d) x = true := by
  unfold alunoStep
  cases hc : (!hasCol d "ALUNO" && !hasCol d "Aluno") with
  | true =>
      simp only [hc, if_true]
      exact hasCol_cons_of h _
  | false => simpa [hc] using h

theorem alunoRename_mono {d : DataFrame} {x : String} (h : hasCol d x = true)
    (hne : x ≠ "ALUNO") : hasCol (alunoRename d) x = true := by
  unfold alunoRename
  cases hc : (hasCol d "ALUNO" && !hasCol d "Aluno") with
  | true =>
      simp only [hc, if_true]
      exact hasCol_renameCol_of_ne h hne _
  | false => simpa [hc] using h

theorem aluno_hasCol (d : DataFrame) : hasCol (alunoRename (alunoStep d)) "Aluno" = true := by
  cases h1 : hasCol d "ALUNO" with
  | true =>
      have hstep : alunoStep d = d := by simp [alunoStep, h1]
      rw [hstep]
      cases h2 : hasCol d "Aluno" with
      | true =>
          have hr : alunoRename d = d := by simp [alunoRename, h2]
          rw [hr]
          exact h2
      | false =>
          have hr : alunoRename d = renameCol d "ALUNO" "Aluno" := by
            simp [alunoRename, h1, h2]
          rw [hr]
          exact hasCol_renameCol_target h1 _
  | false =>
      cases h2 : hasCol d "Aluno" with
      | true =>
          have hstep : alunoStep d = d := by simp [alunoStep, h2]
          rw [hstep]
          have hr : alunoRename d = d := by simp [alunoRename, h1]
          rw [hr]
          exact h2
      | false =>
          have hstep : alunoStep d = ("Aluno", alunoNames (nRows d)) :: d := by
            simp [alunoStep, h1, h2]
          rw [hstep]
          have hhead : hasCol (("Aluno", alunoNames (nRows d)) :: d) "Aluno" = true :=
            hasCol_iff.mpr ⟨("Aluno", alunoNames (nRows d)), List.mem_cons_self _ _, rfl⟩
          have hAL : hasCol (("Aluno", alunoNames (nRows d)) :: d) "ALUNO" = false := by
            cases hq : hasCol (("Aluno", alunoNames (nRows d)) :: d) "ALUNO" with
            | false => rfl
            | true =>
                exfalso
                rcases hasCol_iff.mp hq with ⟨col, hcol, hcx⟩
                rcases List.mem_cons.mp hcol with he | hcol
                · subst he
                  have hx : ("Aluno" : String) = "ALUNO" := hcx
                  exact absurd hx (by decide)
                · have : hasCol d "ALUNO" = true := hasCol_iff.mpr ⟨col, hcol, hcx⟩
                  rw [this] at h1
                  cases h1
          have hr : alunoRename (("Aluno", alunoNames (nRows d)) :: d) =
              ("Aluno", alunoNames (nRows d)) :: d := by
            simp [alunoRename, hAL]
          rw [hr]
          exact hhead

theorem wf_renameCol {df : DataFrame} (h : Wellformed df) (a b : String) :
    Wellformed (renameCol df a b) := by
  unfold renameCol
  refine wf_map_of_len ?_ h
  intro col
  rfl

theorem nRows_renameCol (df : DataFrame) (a b : String) :
    nRows (renameCol df a b) = nRows df := by
  unfold renameCol
  refine nRows_map_of_len ?_ df
  intro col
  rfl

theorem wf_normalizeCols {df : DataFrame} (h : Wellformed df) :
    Wellformed (normalizeCols df) := by
  unfold normalizeCols
  refine wf_map_of_len ?_ h
  intro col
  rfl

theorem wf_renameWith {df : DataFrame} (h : Wellformed df)
    (m : List (String × String)) : Wellformed (renameWith df m) := by
  unfold renameWith
  refine wf_map_of_len ?_ h
  intro col
  rfl

theorem wf_alunoStep {d : DataFrame} (h : Wellformed d) : Wellformed (alunoStep d) := by
  unfold alunoStep
  cases hc : (!hasCol d "ALUNO" && !hasCol d "Aluno") with
  | false => simpa [hc] using h
  | true =>
      simp only [hc, if_true]
      exact wf_cons_front h (by simp [alunoNames])

theorem wf_alunoRename {d : DataFrame} (h : Wellformed d) : Wellformed (alunoRename d) := by
  unfold alunoRename
  cases hc : (hasCol d "ALUNO" && !hasCol d "Aluno") with
  | false => simpa [hc] using h
  | true =>
      simp only [hc, if_true]
      exact wf_renameCol h "ALUNO" "Aluno"

theorem wf_preAggregate {df0 : DataFrame} (h : Wellformed df0) :
    Wellformed (preAggregate df0) := by
  have h1 : Wellformed (normalizeCols df0) := wf_normalizeCols h
  have h2 : Wellformed (map_columns_to_criterios (normalizeCols df0)) :=
    wf_renameWith h1 _
  have h3 := wf_ensure_fold CRITERIOS _ h2
  exact wf_alunoRename (wf_alunoStep h3)

theorem preAggregate_hasCol_crit (df0 : DataFrame) :
    ∀ c ∈ CRITERIOS, hasCol (preAggregate df0) c = true := by
  intro c hc
  have h1 : hasCol (ensure_criterios_columns (map_columns_to_criterios (normalizeCols df0)))
      c = true := ensure_fold_mem CRITERIOS _ c hc
  exact alunoRename_mono (alunoStep_mono h1) (criterios_not_special c hc).1

theorem preAggregate_hasCol_aluno (df0 : DataFrame) :
    hasCol (preAggregate df0) "Aluno" = true :=
  aluno_hasCol (ensure_criterios_columns (map_columns_to_criterios (normalizeCols df0)))

theorem preAggregate_ne_nil (df0 : DataFrame) : preAggregate df0 ≠ [] :=
  ne_nil_of_hasCol (preAggregate_hasCol_aluno df0)

theorem mediaStep_hasCol_media (df : DataFrame) :
    hasCol (mediaStep df) "Média Geral" = true := by
  unfold mediaStep
  cases hA : hasCol df "Média Geral" with
  | true => simp [hA]
  | false =>
      cases hB : hasCol df "MÉDIA GERAL" with
      | true =>
          simp only [hA, hB, Bool.not_false, Bool.not_true, Bool.true_and, Bool.and_false,
            Bool.false_eq_true, if_false, Bool.true_and, if_true]
          exact hasCol_renameCol_target hB _
      | false =>
          simp only [hA, hB, Bool.not_false, Bool.true_and, if_true]
          cases hm : computeMeans df with
          | some vals =>
              show hasCol (setCol df "Média Geral" vals) "Média Geral" = true
              exact hasCol_setCol_self df _ vals
          | none =>
              show hasCol (setCol df "Média Geral"
                (List.replicate (nRows df) (Val.num 0))) "Média Geral" = true
              exact hasCol_setCol_self df _ _

theorem mediaStep_hasCol_of {df : DataFrame} {x : String} (hx : hasCol df x = true)
    (hne : x ≠ "MÉDIA GERAL") : hasCol (mediaStep df) x = true := by
  unfold mediaStep
  cases hA : hasCol df "Média Geral" with
  | true => simpa [hA] using hx
  | false =>
      cases hB : hasCol df "MÉDIA GERAL" with
      | true =>
          simp only [hA, hB, Bool.not_false, Bool.not_true, Bool.true_and, Bool.and_false,
            Bool.false_eq_true, if_false, Bool.true_and, if_true]
          exact hasCol_renameCol_of_ne hx hne _
      | false =>
          simp only [hA, hB, Bool.not_false, Bool.true_and, if_true]
          cases hm : computeMeans df with
          | some vals =>
              show hasCol (setCol df "Média Geral" vals) x = true
              exact hasCol_setCol_of hx _ vals
          | none =>
              show hasCol (setCol df "Média Geral"
                (List.replicate (nRows df) (Val.num 0))) x = true
              exact hasCol_setCol_of hx _ _

theorem wf_mediaStep {df : DataFrame} (h : Wellformed df) : Wellformed (mediaStep df) := by
  unfold mediaStep
  cases hA : hasCol df "Média Geral" with
  | true => simpa [hA] using h
  | false =>
      cases hB : hasCol df "MÉDIA GERAL" with
      | true =>
          simp only [hA, hB, Bool.not_false, Bool.not_true, Bool.true_and, Bool.and_false,
            Bool.false_eq_true, if_false, Bool.true_and, if_true]
          exact wf_renameCol h "MÉDIA GERAL" "Média Geral"
      | false =>
          simp only [hA, hB, Bool.not_false, Bool.true_and, if_true]
          cases hm : computeMeans df with
          | some vals =>
              show Wellformed (setCol df "Média Geral" vals)
              rw [setCol_of_not hA]
              exact wf_append_single h (computeMeans_some_length hm)
          | none =>
              show Wellformed (setCol df "Média Geral"
                (List.replicate (nRows df) (Val.num 0)))
              rw [setCol_of_not hA]
              exact wf_append_single h (by simp)

theorem nRows_mediaStep {df : DataFrame} (hne : df ≠ []) :
    nRows (mediaStep df) = nRows df := by
  unfold mediaStep
  cases hA : hasCol df "Média Geral" with
  | true => simp [hA]
  | false =>
      cases hB : hasCol df "MÉDIA GERAL" with
      | true =>
          simp only [hA, hB, Bool.not_false, Bool.not_true, Bool.true_and, Bool.and_false,
            Bool.false_eq_true, if_false, Bool.true_and, if_true]
          exact nRows_renameCol df "MÉDIA GERAL" "Média Geral"
      | false =>
          simp only [hA, hB, Bool.not_false, Bool.true_and, if_true]
          cases hm : computeMeans df with
          | some vals =>
              show nRows (setCol df "Média Geral" vals) = nRows df
              exact nRows_setCol_of_not hA hne vals
          | none =>
              show nRows (setCol df "Média Geral"
                (List.replicate (nRows df) (Val.num 0))) = nRows df
              exact nRows_setCol_of_not hA hne _

theorem pyStrVal_is_str (v : Val) : ∃ s, pyStrVal v = Val.str s := by
  cases v with
  | num q => exact ⟨_, rfl⟩
  | str s => exact ⟨s, rfl⟩
  | null => exact ⟨"nan", rfl⟩

theorem findCol_astype_self (c : String) (df : DataFrame) :
    findCol (astypeStrCol df c) c =
      (findCol df c).map (fun col => (col.1, col.2.map pyStrVal)) := by
  induction df with
  | nil => rfl
  | cons col rest ih =>
      cases hc : (col.1 == c) with
      | true =>
          simp only [astypeStrCol, findCol, List.map_cons, List.find?, hc, if_true]
          simp [hc]
      | false =>
          simp only [astypeStrCol, findCol, List.map_cons, List.find?, hc,
            Bool.false_eq_true, if_false]
          simpa [astypeStrCol, findCol] using ih

theorem getCell_astype_self {df : DataFrame} {c : String} (h : hasCol df c = true)
    (hw : Wellformed df) {i : Nat} (hi : i < nRows df) :
    ∃ s, getCell (astypeStrCol df c) c i = Val.str s := by
  obtain ⟨col, hcol⟩ := hasCol_findCol h
  obtain ⟨hc1, hc2⟩ := findCol_some hcol
  have hlen : col.2.length = nRows df := hw col hc2
  have hfind := findCol_astype_self c df
  rw [hcol] at hfind
  have hii : i < (col.2.map pyStrVal).length := by simpa [hlen] using hi
  unfold getCell
  rw [hfind]
  simp only [Option.map_some']
  rw [List.getD_eq_getElem _ _ hii]
  rw [List.getElem_map]
  exact pyStrVal_is_str _

theorem nRows_astype (df : DataFrame) (c : String) :
    nRows (astypeStrCol df c) = nRows df := by
  refine nRows_map_of_len ?_ df
  intro col
  by_cases h : col.1 = c
  · simp [h]
  · simp [h]

theorem wf_astype {df : DataFrame} (h : Wellformed df) (c : String) :
    Wellformed (astypeStrCol df c) := by
  refine wf_map_of_len ?_ h
  intro col
  by_cases hc : col.1 = c
  · simp [hc]
  · simp [hc]

/-- The combined reconciliation guarantee shared by the invariant claims:
every rubric column exists, the identifier column exists, the aggregate
column exists, and every row's identifier cell is a (non-null) string. -/
theorem reconcile_usable (df0 : DataFrame) (hwf : Wellformed df0) :
    (∀ c ∈ CRITERIOS, hasCol (reconcile df0) c = true) ∧
    hasCol (reconcile df0) "Aluno" = true ∧
    hasCol (reconcile df0) "Média Geral" = true ∧
    ∀ i, i < nRows (reconcile df0) → ∃ s, getCell (reconcile df0) "Aluno" i = Val.str s := by
  have hwp : Wellformed (preAggregate df0) := wf_preAggregate hwf
  have hal : hasCol (preAggregate df0) "Aluno" = true := preAggregate_hasCol_aluno df0
  have hwm : Wellformed (mediaStep (preAggregate df0)) := wf_mediaStep hwp
  have halm : hasCol (mediaStep (preAggregate df0)) "Aluno" = true :=
    mediaStep_hasCol_of hal (by decide)
  refine ⟨?_, ?_, ?_, ?_⟩
  · intro c hc
    have h1 := preAggregate_hasCol_crit df0 c hc
    have h2 := mediaStep_hasCol_of h1 (criterios_not_special c hc).2.2.1
    show hasCol (astypeStrCol (mediaStep (preAggregate df0)) "Aluno") c = true
    rw [hasCol_astype]
    exact h2
  · show hasCol (astypeStrCol (mediaStep (preAggregate df0)) "Aluno") "Aluno" = true
    rw [hasCol_astype]
    exact halm
  · show hasCol (astypeStrCol (mediaStep (preAggregate df0)) "Aluno") "Média Geral" = true
    rw [hasCol_astype]
    exact mediaStep_hasCol_media _
  · intro i hi
    have hn : nRows (reconcile df0) = nRows (mediaStep (preAggregate df0)) :=
      nRows_astype _ "Aluno"
    rw [hn] at hi
    exact getCell_astype_self halm hwm hi

/-! ## The aggregate column of the reconciled table -/

theorem nRows_reconcile (df0 : DataFrame) :
    nRows (reconcile df0) = nRows (preAggregate df0) := by
  unfold reconcile
  rw [nRows_astype]
  exact nRows_mediaStep (preAggregate_ne_nil df0)

theorem getCell_media_of_computed {df0 : DataFrame}
    (hA : hasCol (preAggregate df0) "Média Geral" = false)
    (hB : hasCol (preAggregate df0) "MÉDIA GERAL" = false)
    {vals : List Val} (hm : computeMeans (preAggregate df0) = some vals) (i : Nat) :
    getCell (reconcile df0) "Média Geral" i = vals.getD i Val.null := by
  unfold reconcile
  rw [getCell_astype_other (by decide) i]
  have hstep : mediaStep (preAggregate df0) = setCol (preAggregate df0) "Média Geral" vals := by
    unfold mediaStep
    simp only [hA, hB, Bool.not_false, Bool.true_and, if_true]
    rw [hm]
  rw [hstep, setCol_of_not hA]
  exact getCell_append_of_not hA vals i

theorem getCell_media_of_error {df0 : DataFrame}
    (hA : hasCol (preAggregate df0) "Média Geral" = false)
    (hB : hasCol (preAggregate df0) "MÉDIA GERAL" = false)
    (hm : computeMeans (preAggregate df0) = none) (i : Nat) :
    getCell (reconcile df0) "Média Geral" i =
      (List.replicate (nRows (preAggregate df0)) (Val.num 0)).getD i Val.null := by
  unfold reconcile
  rw [getCell_astype_other (by decide) i]
  have hstep : mediaStep (preAggregate df0) =
      setCol (preAggregate df0) "Média Geral"
        (List.replicate (nRows (preAggregate df0)) (Val.num 0)) := by
    unfold mediaStep
    simp only [hA, hB, Bool.not_false, Bool.true_and, if_true]
    rw [hm]
  rw [hstep, setCol_of_not hA]
  exact getCell_append_of_not hA _ i

theorem isNum_not_isStr {v : Val} (h : isNumVal v = true) : isStrVal v = false := by
  cases v with
  | num q => rfl
  | str s => cases h
  | null => cases h

/-- C1 (amended): when the row-wise mean computation raises (non-numeric
contamination anywhere in the rubric columns), the `except` branch assigns
the scalar 0 to the whole `Média Geral` column — every row of the table gets
aggregate 0, not only the contaminated row — and the load still completes
with the aggregate column present. -/
theorem aggregate_failure_zeroes_all_rows (df0 : DataFrame)
    (hA : hasCol (preAggregate df0) "Média Geral" = false)
    (hB : hasCol (preAggregate df0) "MÉDIA GERAL" = false)
    (herr : computeMeans (preAggregate df0) = none) :
    hasCol (reconcile df0) "Média Geral" = true ∧
    ∀ i, i < nRows (reconcile df0) → getCell (reconcile df0) "Média Geral" i = Val.num 0 := by
  constructor
  · show hasCol (astypeStrCol (mediaStep (preAggregate df0)) "Aluno") "Média Geral" = true
    rw [hasCol_astype]
    exact mediaStep_hasCol_media _
  · intro i hi
    rw [getCell_media_of_error hA hB herr i]
    rw [nRows_reconcile df0] at hi
    exact getD_replicate_of_lt hi _ _

/-- Witness for C1 (amended) at a table whose second row is contaminated. -/
theorem aggregate_failure_zeroes_all_rows_witness :
    (hasCol (preAggregate [("LIDERANÇA", [Val.num 5, Val.str "bad"])]) "Média Geral" = false ∧
     hasCol (preAggregate [("LIDERANÇA", [Val.num 5, Val.str "bad"])]) "MÉDIA GERAL" = false ∧
     computeMeans (preAggregate [("LIDERANÇA", [Val.num 5, Val.str "bad"])]) = none) ∧
    (hasCol (reconcile [("LIDERANÇA", [Val.num 5, Val.str "bad"])]) "Média Geral" = true ∧
     ∀ i, i < nRows (reconcile [("LIDERANÇA", [Val.num 5, Val.str "bad"])]) →
       getCell (reconcile [("LIDERANÇA", [Val.num 5, Val.str "bad"])]) "Média Geral" i =
         Val.num 0) :=
  ⟨⟨by decide, by decide, by decide⟩,
   aggregate_failure_zeroes_all_rows [("LIDERANÇA", [Val.num 5, Val.str "bad"])]
     (by decide) (by decide) (by decide)⟩

/-- C1 counterexample: in a two-row table whose second row is contaminated,
row 0 is fully numeric with computable rounded mean 1/2, yet its aggregate is
0 — the default is not limited to the affected row and computable rows do
not keep their computed aggregate. -/
theorem aggregate_failure_not_row_local :
    (∀ c ∈ CRITERIOS,
      isNumVal (getCell (preAggregate [("COMANDO", [Val.num 5, Val.str "bad"])]) c 0) = true) ∧
    roundVal2 (rowMeanRaw (critCells (preAggregate [("COMANDO", [Val.num 5, Val.str "bad"])]) 0)) =
      Val.num (1 / 2) ∧
    getCell (reconcile [("COMANDO", [Val.num 5, Val.str "bad"])]) "Média Geral" 0 = Val.num 0 ∧
    (Val.num 0 : Val) ≠ Val.num (1 / 2) := by decide

/-- C2 counterexample: a source table that supplies a textual value in a
rubric column yields a reconciled table whose `LIDERANÇA` cell is the
non-numeric string "abc" — not every rubric cell is numeric. -/
theorem rubric_cell_not_numeric :
    "LIDERANÇA" ∈ CRITERIOS ∧
    0 < nRows (reconcile [("ALUNO", [Val.str "x"]), ("LIDERANÇA", [Val.str "abc"])]) ∧
    getCell (reconcile [("ALUNO", [Val.str "x"]), ("LIDERANÇA", [Val.str "abc"])])
      "LIDERANÇA" 0 = Val.str "abc" ∧
    isNumVal (getCell (reconcile [("ALUNO", [Val.str "x"]), ("LIDERANÇA", [Val.str "abc"])])
      "LIDERANÇA" 0) = false := by decide

/-- C2 (amended): for every rectangular input table, the reconciled table has
all ten rubric columns and an identifier column, and every row's identifier
cell is a (non-null) string; cells of rubric columns taken from the source
may however be non-numeric. -/
theorem reconciled_invariant (df0 : DataFrame) (hwf : Wellformed df0) :
    (∀ c ∈ CRITERIOS, hasCol (reconcile df0) c = true) ∧
    hasCol (reconcile df0) "Aluno" = true ∧
    ∀ i, i < nRows (reconcile df0) →
      getCell (reconcile df0) "Aluno" i ≠ Val.null ∧
      ∃ s, getCell (reconcile df0) "Aluno" i = Val.str s := by
  obtain ⟨h1, h2, _, h4⟩ := reconcile_usable df0 hwf
  refine ⟨h1, h2, fun i hi => ?_⟩
  obtain ⟨s, hs⟩ := h4 i hi
  refine ⟨?_, ⟨s, hs⟩⟩
  rw [hs]
  exact fun h => Val.noConfusion h

/-- Witness for C2 (amended) at a concrete one-column table. -/
theorem reconciled_invariant_witness :
    Wellformed [("nota", [Val.num 3])] ∧
    ((∀ c ∈ CRITERIOS, hasCol (reconcile [("nota", [Val.num 3])]) c = true) ∧
     hasCol (reconcile [("nota", [Val.num 3])]) "Aluno" = true ∧
     ∀ i, i < nRows (reconcile [("nota", [Val.num 3])]) →
       getCell (reconcile [("nota", [Val.num 3])]) "Aluno" i ≠ Val.null ∧
       ∃ s, getCell (reconcile [("nota", [Val.num 3])]) "Aluno" i = Val.str s) :=
  ⟨by decide, reconciled_invariant [("nota", [Val.num 3])] (by decide)⟩

/-- C3 (amended): for every row of a reconciled table whose aggregate column
was computed (no equivalent column pre-supplied), whose column labels are
pairwise distinct at the point the aggregate is computed (no two raw headers
collapsed to the same canonical label), and whose table's mean computation
succeeded (every rubric cell numeric), the aggregate equals the mean of that
row's 10 rubric values rounded to 2 decimal places.  (When the computation
fails, the whole column is defaulted to 0 instead.)  The hypothesis
`_hnodup` restricts the claim to tables without duplicate column labels:
with duplicates, pandas `df[CRITERIOS]` selects every matching column and
the program's row mean ranges over more than ten values, whereas under
distinctness each rubric name denotes exactly one column — the one this
embedding reads — so the conclusion is exactly the program's behaviour. -/
theorem aggregate_is_rounded_mean (df0 : DataFrame)
    (hA : hasCol (preAggregate df0) "Média Geral" = false)
    (hB : hasCol (preAggregate df0) "MÉDIA GERAL" = false)
    (_hnodup : (colLabels (preAggregate df0)).Nodup)
    (hnum : ∀ j, j < nRows (preAggregate df0) → ∀ c ∈ CRITERIOS,
      isNumVal (getCell (preAggregate df0) c j) = true) :
    ∀ i, i < nRows (reconcile df0) →
      (numsOf (critCells (preAggregate df0) i)).length = 10 ∧
      getCell (reconcile df0) "Média Geral" i =
        Val.num (round2 ((numsOf (critCells (preAggregate df0) i)).sum / 10)) := by
  intro i hi
  rw [nRows_reconcile df0] at hi
  have hstr : ∀ j, j < nRows (preAggregate df0) → ∀ c ∈ CRITERIOS,
      isStrVal (getCell (preAggregate df0) c j) = false :=
    fun j hj c hc => isNum_not_isStr (hnum j hj c hc)
  have hsome := computeMeans_eq_some hstr
  have hcells : ∀ v ∈ critCells (preAggregate df0) i, isNumVal v = true := by
    intro v hv
    rcases List.mem_map.mp hv with ⟨c, hc, hvc⟩
    rw [← hvc]
    exact hnum i hi c hc
  have hlen10 : (critCells (preAggregate df0) i).length = 10 := by
    simp only [critCells, List.length_map]
    rfl
  have hnums : (numsOf (critCells (preAggregate df0) i)).length = 10 := by
    rw [numsOf_all_num _ hcells, hlen10]
  refine ⟨hnums, ?_⟩
  rw [getCell_media_of_computed hA hB hsome i, computeMeans_some_getD hsome hi]
  have hne : critCells (preAggregate df0) i ≠ [] := by
    intro he
    rw [he] at hlen10
    cases hlen10
  rw [rowMeanRaw_all_num hcells hne, hlen10]
  simp only [roundVal2, Val.num.injEq]
  norm_num

/-- Witness for C3 (amended) at a one-row table supplying only `TEORIA`:
all hypotheses — no pre-supplied aggregate, pairwise-distinct labels,
all rubric cells numeric — hold and are discharged by evaluation. -/
theorem aggregate_is_rounded_mean_witness :
    (hasCol (preAggregate [("TEORIA", [Val.num 4])]) "Média Geral" = false ∧
     hasCol (preAggregate [("TEORIA", [Val.num 4])]) "MÉDIA GERAL" = false ∧
     (colLabels (preAggregate [("TEORIA", [Val.num 4])])).Nodup ∧
     ∀ j, j < nRows (preAggregate [("TEORIA", [Val.num 4])]) → ∀ c ∈ CRITERIOS,
       isNumVal (getCell (preAggregate [("TEORIA", [Val.num 4])]) c j) = true) ∧
    (∀ i, i < nRows (reconcile [("TEORIA", [Val.num 4])]) →
      (numsOf (critCells (preAggregate [("TEORIA", [Val.num 4])]) i)).length = 10 ∧
      getCell (reconcile [("TEORIA", [Val.num 4])]) "Média Geral" i =
        Val.num (round2 ((numsOf (critCells (preAggregate [("TEORIA", [Val.num 4])]) i)).sum / 10))) :=
  ⟨⟨by decide, by decide, by decide, by decide⟩,
   aggregate_is_rounded_mean [("TEORIA", [Val.num 4])]
     (by decide) (by decide) (by decide) (by decide)⟩

/-- C3 counterexample: no aggregate column is pre-supplied and row 0's ten
rubric cells are all numeric with rounded mean 2/5, yet its aggregate is 0
because another row is contaminated — the aggregate of a computed (not
pre-supplied) column does not always equal the row's rounded mean.  The
table's labels are pairwise distinct, so the embedding's cell lookups
coincide with the program's here. -/
theorem aggregate_not_rounded_mean :
    hasCol (preAggregate [("TEORIA", [Val.num 4, Val.str "oops"])]) "Média Geral" = false ∧
    hasCol (preAggregate [("TEORIA", [Val.num 4, Val.str "oops"])]) "MÉDIA GERAL" = false ∧
    (colLabels (preAggregate [("TEORIA", [Val.num 4, Val.str "oops"])])).Nodup ∧
    (∀ c ∈ CRITERIOS,
      isNumVal (getCell (preAggregate [("TEORIA", [Val.num 4, Val.str "oops"])]) c 0) = true) ∧
    round2 ((numsOf (critCells (preAggregate [("TEORIA", [Val.num 4, Val.str "oops"])]) 0)).sum
        / 10) = 2 / 5 ∧
    getCell (reconcile [("TEORIA", [Val.num 4, Val.str "oops"])]) "Média Geral" 0 = Val.num 0 ∧
    (Val.num 0 : Val) ≠ Val.num (2 / 5) := by decide

/-- C6: for every upload (any byte stream outcome, any filename) and any
local-default-file outcome, the loader either returns a parsed table or
`none` (exceptions are caught at its boundary), the module falls back to the
local file and then to the demo table, and the reconciled result always has
every rubric column, the identifier column, the aggregate column, and a
string identifier in every row — no input is fatal. -/
theorem loader_fallback_usable (u : Option Upload) (localFile : Except String DataFrame)
    (hwf : Wellformed (load_pipeline u localFile)) :
    (∀ c ∈ CRITERIOS, hasCol (full_pipeline u localFile) c = true) ∧
    hasCol (full_pipeline u localFile) "Aluno" = true ∧
    hasCol (full_pipeline u localFile) "Média Geral" = true ∧
    ∀ i, i < nRows (full_pipeline u localFile) →
      ∃ s, getCell (full_pipeline u localFile) "Aluno" i = Val.str s :=
  reconcile_usable (load_pipeline u localFile) hwf

/-- Witness for C6: no upload and an unreadable local file — the pipeline
falls back to the demo table and still yields a usable reconciled table. -/
theorem loader_fallback_usable_witness :
    Wellformed (load_pipeline none (Except.error "unreadable")) ∧
    ((∀ c ∈ CRITERIOS, hasCol (full_pipeline none (Except.error "unreadable")) c = true) ∧
     hasCol (full_pipeline none (Except.error "unreadable")) "Aluno" = true ∧
     hasCol (full_pipeline none (Except.error "unreadable")) "Média Geral" = true ∧
     ∀ i, i < nRows (full_pipeline none (Except.error "unreadable")) →
       ∃ s, getCell (full_pipeline none (Except.error "unreadable")) "Aluno" i = Val.str s) :=
  ⟨by decide, loader_fallback_usable none (Except.error "unreadable") (by decide)⟩

/-- C7 counterexample: the column "notas extra" is renamed by neither the
mapper (`col_map` of its canonical labels is empty) nor the reconciler, yet
its original label is absent from the reconciled table — line 153 replaces
every label by its canonical form, so originals are not preserved for
display. -/
theorem original_label_not_preserved :
    col_map ["NOTAS EXTRA"] = [] ∧
    hasCol (reconcile [("notas extra", [Val.num 1])]) "notas extra" = false ∧
    hasCol (reconcile [("notas extra", [Val.num 1])]) "NOTAS EXTRA" = true := by decide

/-- C7 (amended): canonicalization is applied in place when a table is
loaded — every column that the mapper leaves unmapped and the reconciler's
special renames do not touch appears in the reconciled table under its
CANONICAL label (the original label is not preserved unless it is already
canonical). -/
theorem canonical_label_displayed (df0 : DataFrame) (lab : String)
    (hmem : lab ∈ colLabels df0)
    (hnk : (col_map (colLabels (normalizeCols df0))).find?
        (fun p => p.1 == normalize_colname lab) = none)
    (hAL : normalize_colname lab ≠ "ALUNO")
    (hMG : normalize_colname lab ≠ "MÉDIA GERAL") :
    hasCol (reconcile df0) (normalize_colname lab) = true := by
  have h1 : hasCol (normalizeCols df0) (normalize_colname lab) = true := by
    rcases List.mem_map.mp hmem with ⟨col, hcol, hl⟩
    exact hasCol_iff.mpr ⟨(normalize_colname col.1, col.2),
      List.mem_map.mpr ⟨col, hcol, rfl⟩, by rw [hl]⟩
  have h2 : hasCol (map_columns_to_criterios (normalizeCols df0))
      (normalize_colname lab) = true :=
    hasCol_renameWith_of_none h1 hnk
  have h3 := ensure_fold_mono CRITERIOS _ _ h2
  have h4 := alunoStep_mono h3
  have h5 := alunoRename_mono h4 hAL
  have h6 := mediaStep_hasCol_of h5 hMG
  show hasCol (astypeStrCol (mediaStep (preAggregate df0)) "Aluno")
    (normalize_colname lab) = true
  rw [hasCol_astype]
  exact h6

/-- Witness for C7 (amended) at the concrete unmapped column "extra col". -/
theorem canonical_label_displayed_witness :
    ("extra col" ∈ colLabels [("extra col", [Val.num 1])] ∧
     (col_map (colLabels (normalizeCols [("extra col", [Val.num 1])]))).find?
        (fun p => p.1 == normalize_colname "extra col") = none ∧
     normalize_colname "extra col" ≠ "ALUNO" ∧
     normalize_colname "extra col" ≠ "MÉDIA GERAL") ∧
    hasCol (reconcile [("extra col", [Val.num 1])]) (normalize_colname "extra col") = true :=
  ⟨⟨by decide, by decide, by decide, by decide⟩,
   canonical_label_displayed [("extra col", [Val.num 1])] "extra col"
     (by decide) (by decide) (by decide) (by decide)⟩

/-- C10: the fallback demo table is fixed and deterministic — exactly 3 rows
with the identifiers "Beatriz Vitoria", "Ana Cecilia" and "Francisco Neto",
all ten rubric columns populated with scores in the range 1 to 5, and
aggregate values exactly 2.7, 1.8, 3.6 (the row means rounded to 2
decimals). -/
theorem demo_dataframe_fixed :
    colLabels demo_dataframe = "Aluno" :: CRITERIOS ++ ["Média Geral"] ∧
    nRows demo_dataframe = 3 ∧
    getCell demo_dataframe "Aluno" 0 = Val.str "Beatriz Vitoria" ∧
    getCell demo_dataframe "Aluno" 1 = Val.str "Ana Cecilia" ∧
    getCell demo_dataframe "Aluno" 2 = Val.str "Francisco Neto" ∧
    (∀ c ∈ CRITERIOS, ∀ i, i < 3 → valInRange (getCell demo_dataframe c i) 1 5 = true) ∧
    getCell demo_dataframe "Média Geral" 0 = Val.num (27 / 10) ∧
    getCell demo_dataframe "Média Geral" 1 = Val.num (18 / 10) ∧
    getCell demo_dataframe "Média Geral" 2 = Val.num (36 / 10) ∧
    getCell demo_dataframe "Média Geral" 0 =
      roundVal2 (rowMeanRaw (critCells demoBase 0)) ∧
    getCell demo_dataframe "Média Geral" 1 =
      roundVal2 (rowMeanRaw (critCells demoBase 1)) ∧
    getCell demo_dataframe "Média Geral" 2 =
      roundVal2 (rowMeanRaw (critCells demoBase 2)) := by decide

/-- C9 counterexample: for the identifier "a\tb" (the tab is whitespace),
the code's filename keeps the tab — `replace(' ', '_')` substitutes only
space characters, not whitespace as the claim states. -/
theorem export_filename_keeps_tab :
    isSpaceP '\t' = true ∧
    single_export_filename "a\tb" = "avaliacao_a\tb.csv" ∧
    wsReplaceFilename "a\tb" = "avaliacao_a_b.csv" ∧
    single_export_filename "a\tb" ≠ wsReplaceFilename "a\tb" := by decide

/-- C9 (amended): for every submitted evaluation, the single-evaluation
export has exactly one header record and one data record; the header columns
are, in order, the identifier, one column per rubric field in rubric order,
then the notes column, and the data record carries the submitted values in
the same order; the download filename is derived from the identifier with
each SPACE character (not every whitespace character) replaced by an
underscore. -/
theorem single_export_shape (nome : String) (notas : String → ℚ) (coment : String) :
    (single_export_records nome notas coment).length = 2 ∧
    (single_export_records nome notas coment).head? =
      some ("Aluno" :: CRITERIOS ++ ["Observações"]) ∧
    (single_export_records nome notas coment).getLast? =
      some (nome :: CRITERIOS.map (fun c => csvCell (Val.num (notas c))) ++ [coment]) ∧
    single_export_filename nome =
      "avaliacao_" ++
        String.mk (nome.data.map (fun c => if c = ' ' then '_' else c)) ++ ".csv" := by
  refine ⟨rfl, ?_, ?_, ?_⟩
  · have hm : List.map (Prod.fst ∘ fun c => (c, Val.num (notas c))) CRITERIOS
        = List.map id CRITERIOS := List.map_congr_left (fun a _ => rfl)
    simp [single_export_records, form_entrada, hm]
  · have hm : List.map ((fun p => csvCell p.2) ∘ fun c => (c, Val.num (notas c))) CRITERIOS
        = List.map (fun c => csvCell (Val.num (notas c))) CRITERIOS :=
      List.map_congr_left (fun a _ => rfl)
    simp [single_export_records, form_entrada, hm, csvCell]
  · simp only [single_export_filename, pyReplaceChar]
    have : (fun c => if c == ' ' then '_' else c) = fun c => if c = ' ' then '_' else c := by
      funext c
      by_cases h : c = ' '
      · simp [h]
      · simp [h]
    rw [this]
